import Mathlib

/-!
Projective plane of prime order: the incidence core of `main.cpp`.

A shallow embedding of `Vector`, `constructVertices`, `constructLines`, `isPrime` and of
the parts of `main` that check the entered order, prepare the flag array and walk the
finished lines, followed by theorems about the incidence structure the program builds.

Conventions of the embedding:
* `int` values are natural numbers: every integer the core computes is built from
  non-negative loop counters with `+`, `*` and `%`, and stays far below `2^31` for the
  orders `main` lets through (at most 100).  The array size `o * o + o + 1` of
  `constructVertices` is checked against the range of `int` (`intValue`): beyond it the
  computation is undefined.  The exact dot product `Vector.dotProduct` has a machine
  counterpart `Vector.dotProduct32`, which wraps to 32 bits; the two agree when no
  product or sum of the dot product leaves the range of `int`.
* A heap array is a list of cells; an array of pointers that was allocated but not yet
  assigned holds `none`.  A read or write outside the allocation, and a dereference of an
  unassigned pointer, is undefined behaviour and makes the computation return `none`.
* A counted loop `for (i = lo; i < hi; i++)` is `forLoop lo hi body`.
* The library function `sqrt`, used by `isPrime` in the test `i <= sqrt(p)`, is not part
  of the program; that test is a parameter of the embedding of `isPrime`.
-/

namespace ProjectivePlane

/-- The class `Vector`: three coordinates and an id. -/
structure Vector where
  x1 : Nat
  x2 : Nat
  x3 : Nat
  id : Nat
  deriving DecidableEq, Repr

/-- The three-argument constructor `Vector(x1, x2, x3)`: the id is set to 0. -/
def Vector.mk3 (x1 x2 x3 : Nat) : Vector := ⟨x1, x2, x3, 0⟩

/-- The accessor `getX(order)`: coordinate 1, 2 or 3, and 0 for any other order. -/
def Vector.getX (v : Vector) (order : Nat) : Nat :=
  match order with
  | 1 => v.x1
  | 2 => v.x2
  | 3 => v.x3
  | _ => 0

/-- The accessor `getId()`. -/
def Vector.getId (v : Vector) : Nat := v.id

/-- The method `dotProduct`: the ordinary integer dot product, not reduced.  This is the
exact value; what a 32-bit `int` holds is `Vector.dotProduct32`, and the two agree for
coordinates whose products and sums stay below `2^31`, as for every order up to 100. -/
def Vector.dotProduct (this other : Vector) : Nat :=
  this.x1 * other.getX 1 + this.x2 * other.getX 2 + this.x3 * other.getX 3

/-- An assignment `arr[i] = x` into a heap array: outside the allocation it is undefined. -/
def store {α : Type} (arr : List α) (i : Nat) (x : α) : Option (List α) :=
  if i < arr.length then some (arr.set i x) else none

/-- Runs `body lo`, `body (lo+1)`, ... for `n` consecutive counter values. -/
def forRange {σ : Type} (body : Nat → σ → Option σ) : Nat → Nat → σ → Option σ
  | _, 0, s => some s
  | lo, n + 1, s => (body lo s).bind (forRange body (lo + 1) n)

/-- The counted loop `for (i = lo; i < hi; i++) body`. -/
def forLoop {σ : Type} (lo hi : Nat) (body : Nat → σ → Option σ) (s : σ) : Option σ :=
  forRange body lo (hi - lo) s

/-- The state of `constructVertices`: the running `index`, the array `vertices`, and a
trace of the positions assigned so far, in program order. -/
structure VState where
  index : Nat
  vertices : List (Option Vector)
  written : List Nat
  deriving DecidableEq, Repr

/-- The assignment `vertices[i] = new Vector(...)`, recorded in the trace. -/
def VState.put (s : VState) (i : Nat) (v : Vector) : Option VState :=
  (store s.vertices i (some v)).map fun m =>
    { s with vertices := m, written := s.written ++ [i] }

/-- The increment `index++` of the two vertex loops. -/
def VState.next (s : VState) : VState := { s with index := s.index + 1 }

/-- A non-negative value computed in the type `int`: it must lie below `2^31`, signed
overflow being undefined behaviour.  (Where the machine wraps instead, the size of the
vertex array comes out negative or too small for the loops that fill it, so no vertex
array is produced either.) -/
def intValue (n : Nat) : Option Nat := if n < 2 ^ 31 then some n else none

/-- The function `constructVertices(o)`.  The size `int vsize = (o * o) + o + 1` is
computed in `int`; its partial results `o * o` and `o * o + o` are no larger, and the
counters `index`, `a`, `b` and the ids stay at most `vsize`. -/
def constructVertices (o : Nat) : Option VState := do
  let vsize ← intValue ((o * o) + o + 1)
  let s0 : VState := ⟨1, List.replicate vsize none, []⟩
  let s1 ← s0.put 0 ⟨1, 0, 0, 0⟩
  let s2 ← forLoop 0 o (fun a s => (s.put s.index ⟨a, 1, 0, s.index⟩).map VState.next) s1
  forLoop 0 o (fun b s =>
    forLoop 0 o (fun a s => (s.put s.index ⟨b, a, 1, s.index⟩).map VState.next) s) s2

/-- The incidence scan `for (i = 0, j = 0; j <= o; i++)` of `constructLines`.  The first
argument is the part of `vertices` from the cursor `i` on, so reading `vertices[i]` is
taking its head; `j` counts the points stored in `line` so far.  The loop has no bound
on `i`: running off the array before `o + 1` points are found is undefined. -/
def scan (o : Nat) (rep : Vector) :
    List (Option Vector) → Nat → List (Option Vector) → Option (List (Option Vector))
  | [], j, line => if j ≤ o then none else some line
  | cell :: rest, j, line =>
    if j ≤ o then
      match cell with
      | none => none
      | some v =>
        if v.dotProduct rep % o = 0 then
          (store line j (some v)).bind fun line' => scan o rep rest (j + 1) line'
        else scan o rep rest j line
    else some line

/-- The state of `constructLines`: the flag array `unique` and the array `lines`. -/
structure LState where
  unique : List Bool
  lines : List (Option (List (Option Vector)))
  deriving DecidableEq, Repr

/-- The body of the triple loop of `constructLines` for the vector `(a, b, c)`. -/
def lineStep (vertices : List (Option Vector)) (o a b c : Nat) (s : LState) :
    Option LState := do
  let fresh ← s.unique[(a * o * o) + (b * o) + c]?
  if !fresh then pure s else
    let line ← scan o (Vector.mk3 a b c) vertices 0 (List.replicate (o + 1) none)
    let lines' ← store s.lines (a * o * o + b * o + c) (some line)
    let unique' ← forLoop 2 o (fun i u =>
      store u (((i * a) % o) * o * o + ((i * b) % o) * o + (i * c) % o) false) s.unique
    pure ⟨unique', lines'⟩

/-- The function `constructLines(vertices, unique, o)`; the returned state carries the
array `lines` and the mutated flag array. -/
def constructLines (vertices : List (Option Vector)) (unique : List Bool) (o : Nat) :
    Option LState :=
  forLoop 0 o (fun a s =>
    forLoop 0 o (fun b s =>
      forLoop 0 o (fun c s => lineStep vertices o a b c s) s) s)
    ⟨unique, List.replicate (o * o * o) none⟩

/-- The flag array as `main` prepares it: `unique[0] = false`, then `unique[i] = true`
for `i` from 1.  Every cell of the fresh allocation is assigned before it is read. -/
def initUnique (o : Nat) : Option (List Bool) := do
  let u0 ← store (List.replicate (o * o * o) false) 0 false
  forLoop 1 (o * o * o) (fun i u => store u i true) u0

/-- The inner output loop of `main`: the ids `lines[i][j]->getId()` for `j` in `0..o`. -/
def lineIds (o : Nat) (ln : List (Option Vector)) : Option (List Nat) :=
  forLoop 0 (o + 1) (fun j acc => do
    let v ← (ln[j]?).join
    pure (acc ++ [v.getId])) []

/-- The output loop of `main` over `i` in `1..o^3-1`: a line is written for every index
whose flag is still set; the result is the sequence of written lines, each as its ids. -/
def emitLines (o : Nat) (s : LState) : Option (List (List Nat)) :=
  forLoop 1 (o * o * o) (fun i out => do
    let fresh ← s.unique[i]?
    if !fresh then pure out else
      let ln ← (s.lines[i]?).join
      let ids ← lineIds o ln
      pure (out ++ [ids])) []

/-- What the core of `main` produces for an order that passed validation. -/
structure Plane where
  vertices : List (Option Vector)
  written : List Nat
  unique : List Bool
  lines : List (Option (List (Option Vector)))
  output : List (List Nat)
  deriving DecidableEq, Repr

/-- The core of `main`: `constructVertices`, the flag array, `constructLines`, and the
walk over the lines. -/
def run (o : Nat) : Option Plane := do
  let vs ← constructVertices o
  let u ← initUnique o
  let st ← constructLines vs.vertices u o
  let out ← emitLines o st
  pure ⟨vs.vertices, vs.written, st.unique, st.lines, out⟩

/-! ## Closed forms used to state what the loops compute -/

/-- The point that the construction order places at position `k`: closed form of the
three stages of `constructVertices`, proved equal to the array it fills. -/
def pointAt (o k : Nat) : Vector :=
  if k = 0 then ⟨1, 0, 0, 0⟩
  else if k ≤ o then ⟨k - 1, 1, 0, k⟩
  else ⟨(k - 1 - o) / o, (k - 1 - o) % o, 1, k⟩

/-- The point list in position order, `o * o + o + 1` entries. -/
def points (o : Nat) : List Vector := (List.range (o * o + o + 1)).map (pointAt o)

/-- Loop invariant of `constructVertices`: positions below `n` are filled, in order. -/
def VInv (o n : Nat) (s : VState) : Prop :=
  s.index = n ∧ s.written = List.range n ∧ s.vertices.length = o * o + o + 1 ∧
    ∀ k, k < o * o + o + 1 →
      s.vertices[k]? = some (if k < n then some (pointAt o k) else none)


/-! ## Closed forms for the line enumeration -/

/-- The index `a * o * o + b * o + c` of the vector `(a, b, c)` in the flag array. -/
def idx (o a b c : Nat) : Nat := a * o * o + b * o + c

/-- The index `constructLines` clears for the multiple `i * (a, b, c)`. -/
def markIdx (o i a b c : Nat) : Nat :=
  ((i * a) % o) * o * o + ((i * b) % o) * o + (i * c) % o

/-- The vector `(a, b, c)` has first nonzero coordinate 1. -/
def isRep (a b c : Nat) : Bool :=
  (a == 0 && b == 0 && c == 1) || (a == 0 && b == 1) || a == 1

/-- The vector at flag index `k` has first nonzero coordinate 1. -/
def repIdx (o k : Nat) : Bool := isRep (k / (o * o)) (k / o % o) (k % o)

/-- The incidence test of the scan: `dotProduct % o == 0` against `(a, b, c)`. -/
def onLine (o a b c : Nat) (v : Vector) : Bool :=
  v.dotProduct (Vector.mk3 a b c) % o == 0

/-- All points incident with the vector at flag index `k`, in position order. -/
def lineAt (o k : Nat) : List Vector :=
  (points o).filter (onLine o (k / (o * o)) (k / o % o) (k % o))

/-- The flag at index `k` is still set after the triple loop has handled every vector
of index below `n`: `k` is not the zero vector and no handled representative cleared it. -/
def Fresh (o n k : Nat) : Prop :=
  k ≠ 0 ∧ ∀ a b c, a < o → b < o → c < o → idx o a b c < n → isRep a b c = true →
    ∀ i, 2 ≤ i → i < o → k ≠ markIdx o i a b c

/-- Loop invariant of `constructLines` once every vector of index below `n` is handled. -/
def LInv (o n : Nat) (s : LState) : Prop :=
  s.unique.length = o * o * o ∧ s.lines.length = o * o * o ∧
    (∀ k, k < o * o * o → (s.unique[k]? = some true ↔ Fresh o n k)) ∧
    ∀ k, k < o * o * o → s.lines[k]? =
      some (if repIdx o k = true ∧ k < n then some ((lineAt o k).map some) else none)

/-- The indices of the representatives, ascending: the lines `main` writes, in order. -/
def repList (o : Nat) : List Nat := (List.range (o * o * o)).filter (repIdx o)

/-- The ids of the points incident with the vector at flag index `k`, ascending. -/
def idsAt (o k : Nat) : List Nat := (lineAt o k).map Vector.getId

/-- The flag array when `constructLines` returns. -/
def finalUnique (o : Nat) : List Bool := (List.range (o * o * o)).map (repIdx o)

/-- The array `lines` when `constructLines` returns. -/
def finalLines (o : Nat) : List (Option (List (Option Vector))) :=
  (List.range (o * o * o)).map fun k =>
    if repIdx o k = true then some ((lineAt o k).map some) else none

/-- The position of the point with coordinates `(x1, x2, x3)` in the vertex array. -/
def posOf (o x1 x2 x3 : Nat) : Nat :=
  if x3 = 1 then 1 + o + x1 * o + x2 else if x2 = 1 then 1 + x1 else 0

/-! ## Vocabulary of the claims -/

/-- The vector `(a, b, c)` is an emitted representative: it is a candidate vector other
than the zero vector and its flag is still set when `constructLines` has returned, so the
output loop of `main` writes its line. -/
def Emitted (o : Nat) (pl : Plane) (a b c : Nat) : Prop :=
  a < o ∧ b < o ∧ c < o ∧ 1 ≤ a * o * o + b * o + c ∧
    pl.unique[a * o * o + b * o + c]? = some true

/-- The vector `(x, y, z)` is `k` times `(a, b, c)` modulo `o`, for a scalar `k` in
`1..o-1`. -/
def ScalarMultiple (o k a b c x y z : Nat) : Prop :=
  1 ≤ k ∧ k < o ∧ x = (k * a) % o ∧ y = (k * b) % o ∧ z = (k * c) % o

/-- Two vectors over a field are parallel: their cross product vanishes. -/
def Par {K : Type} [Field K] (u1 u2 u3 v1 v2 v3 : K) : Prop :=
  u1 * v2 = u2 * v1 ∧ u1 * v3 = u3 * v1 ∧ u2 * v3 = u3 * v2

/-! ## The triple loop with a record of its rounds -/

/-- The record of one round of the triple loop of `constructLines`: the flag index of
the vector, the flag read at the top of the round, and the line the round created and
stored, if it was not skipped. -/
structure Round where
  slot : Nat
  fresh : Bool
  line : Option (List (Option Vector))
  deriving DecidableEq, Repr

/-- The round `lineStep` for `(a, b, c)`, which also appends its record to the trace: the
flag `unique[a*o*o + b*o + c]` as read before the round, and, when that flag was set, the
line found in slot `a*o*o + b*o + c` after the round. -/
def lineStepLog (vertices : List (Option Vector)) (o a b c : Nat)
    (t : LState × List Round) : Option (LState × List Round) := do
  let fresh ← t.1.unique[(a * o * o) + (b * o) + c]?
  let s' ← lineStep vertices o a b c t.1
  let created := if fresh then (s'.lines[a * o * o + b * o + c]?).join else none
  pure (s', t.2 ++ [⟨a * o * o + b * o + c, fresh, created⟩])

/-- The function `constructLines` run round by round with the trace of its rounds. -/
def constructLinesLog (vertices : List (Option Vector)) (unique : List Bool) (o : Nat) :
    Option (LState × List Round) :=
  forLoop 0 o (fun a t =>
    forLoop 0 o (fun b t =>
      forLoop 0 o (fun c t => lineStepLog vertices o a b c t) t) t)
    (⟨unique, List.replicate (o * o * o) none⟩, [])

/-- Closed form of the record of round `k` for a prime order. -/
def roundAt (o k : Nat) : Round :=
  ⟨k, repIdx o k, if repIdx o k = true then some ((lineAt o k).map some) else none⟩

/-! ## Machine integers -/

/-- The value a 32-bit signed `int` holds for the exact integer `z`: two's-complement
wrap-around into `-2^31 .. 2^31 - 1`. -/
def int32 (z : Int) : Int := (z + 2 ^ 31) % 2 ^ 32 - 2 ^ 31

/-- The natural number `n` is held exactly by a 32-bit signed `int`: it lies below `2^31`,
so computing it in `int` gives the exact value. -/
def FitsInt32 (n : Nat) : Prop := n < 2 ^ 31 ∧ int32 (n : Int) = (n : Int)

/-- The method `dotProduct` as a 32-bit machine computes it: each of the three products
and each of the two sums of `x1 * o1 + x2 * o2 + x3 * o3` is wrapped to 32 bits. -/
def Vector.dotProduct32 (this other : Vector) : Int :=
  int32 (int32 (int32 ((this.x1 : Int) * (other.getX 1 : Int)) +
      int32 ((this.x2 : Int) * (other.getX 2 : Int))) +
    int32 ((this.x3 : Int) * (other.getX 3 : Int)))

/-! ## The checks of `main` on the entered order -/

/-- The loop `for (int i = 2; i <= sqrt(p); i++)` of `isPrime`, from the trial divisor `i`
on.  The test `i <= sqrt(p)` compares in floating point through the library function
`sqrt`, which is not part of the program: it is the parameter `leSqrt i p`.  The last
argument bounds the number of rounds. -/
def isPrimeFrom (leSqrt : Nat → Nat → Bool) (p : Nat) : Nat → Nat → Option Bool
  | _, 0 => none
  | i, fuel + 1 =>
    if leSqrt i p then
      if p % i == 0 then some false else isPrimeFrom leSqrt p (i + 1) fuel
    else some true

/-- The function `isPrime(p)`; `p + 1` rounds are enough for every `p`. -/
def isPrime (leSqrt : Nat → Nat → Bool) (p : Nat) : Option Bool :=
  isPrimeFrom leSqrt p 2 (p + 1)

/-- How the checks of `main` on the entered order end: with `return code` before the core
is reached, or by going on to the core with the order. -/
inductive Checked where
  | exit (code : Nat)
  | core (order : Nat)
  deriving DecidableEq, Repr

/-- The three checks of `main` on the entered `order`, in program order: `order < 2`,
`!isPrime(order)`, `order > 100`; each failing check ends the program with `return 1`. -/
def mainChecks (leSqrt : Nat → Nat → Bool) (order : Int) : Option Checked :=
  if order < 2 then some (Checked.exit 1)
  else (isPrime leSqrt order.toNat).bind fun prime =>
    if !prime then some (Checked.exit 1)
    else if order > 100 then some (Checked.exit 1)
    else some (Checked.core order.toNat)

/-! ## Counted loops -/

theorem forRange_inv {σ : Type} (body : Nat → σ → Option σ) (I : Nat → σ → Prop) :
    ∀ (n lo : Nat) (s : σ), I lo s →
      (∀ i s, lo ≤ i → i < lo + n → I i s → ∃ s', body i s = some s' ∧ I (i + 1) s') →
      ∃ s', forRange body lo n s = some s' ∧ I (lo + n) s' := by
  intro n
  induction n with
  | zero => intro lo s h _; exact ⟨s, rfl, h⟩
  | succ n ih =>
    intro lo s h hstep
    obtain ⟨s1, h1, hI1⟩ := hstep lo s (le_refl _) (by omega) h
    obtain ⟨s2, h2, hI2⟩ := ih (lo + 1) s1 hI1
      (fun i t hi1 hi2 hI => hstep i t (by omega) (by omega) hI)
    refine ⟨s2, ?_, ?_⟩
    · simp [forRange, h1, h2]
    · have : lo + (n + 1) = lo + 1 + n := by omega
      rw [this]; exact hI2

theorem forLoop_inv {σ : Type} (body : Nat → σ → Option σ) (I : Nat → σ → Prop)
    (lo hi : Nat) (s : σ) (hle : lo ≤ hi) (h0 : I lo s)
    (hstep : ∀ i s, lo ≤ i → i < hi → I i s → ∃ s', body i s = some s' ∧ I (i + 1) s') :
    ∃ s', forLoop lo hi body s = some s' ∧ I hi s' := by
  obtain ⟨s', h1, h2⟩ := forRange_inv body I (hi - lo) lo s h0
    (fun i t hi1 hi2 hI => hstep i t hi1 (by omega) hI)
  refine ⟨s', h1, ?_⟩
  have : lo + (hi - lo) = hi := by omega
  rw [this] at h2; exact h2


/-! ## The vertex array -/

theorem VInv_put (o n : Nat) (s : VState) (v : Vector) (h : VInv o n s)
    (hn : n < o * o + o + 1) (hv : v = pointAt o n) :
    ∃ s', (s.put s.index v).map VState.next = some s' ∧ VInv o (n + 1) s' := by
  obtain ⟨h1, h2, h3, h4⟩ := h
  refine ⟨⟨n + 1, s.vertices.set n (some v), s.written ++ [n]⟩, ?_, ?_⟩
  · simp [VState.put, store, h1, h3, hn, VState.next]
  · refine ⟨rfl, by simp [h2, List.range_succ], by simp [h3], ?_⟩
    intro k hk
    show (s.vertices.set n (some v))[k]? = _
    rw [List.getElem?_set]
    by_cases hkn : n = k
    · subst hkn; simp [h3, hn, hv]
    · simp only [hkn, if_false]
      rw [h4 k hk]
      by_cases hlt : k < n
      · simp [hlt, show k < n + 1 by omega]
      · simp [hlt, show ¬ k < n + 1 by omega]

theorem pointAt_zero (o : Nat) : pointAt o 0 = ⟨1, 0, 0, 0⟩ := by simp [pointAt]

theorem pointAt_first (o a : Nat) (ha : a < o) : pointAt o (1 + a) = ⟨a, 1, 0, 1 + a⟩ := by
  have h1 : 1 + a ≠ 0 := by omega
  have h2 : 1 + a ≤ o := by omega
  simp [pointAt, h1, h2]

theorem pointAt_second (o b a : Nat) (ha : a < o) :
    pointAt o (1 + o + b * o + a) = ⟨b, a, 1, 1 + o + b * o + a⟩ := by
  have h1 : 1 + o + b * o + a ≠ 0 := by omega
  have h2 : ¬ 1 + o + b * o + a ≤ o := by omega
  have h3 : 1 + o + b * o + a - 1 - o = a + o * b := by
    rw [Nat.mul_comm b o]; omega
  have ho : 0 < o := by omega
  simp only [pointAt, h1, h2, if_false, h3, Nat.add_mul_div_left _ _ ho, Nat.add_mul_mod_self_left,
    Nat.div_eq_of_lt ha, Nat.mod_eq_of_lt ha, Nat.zero_add]

theorem constructVertices_inv (o : Nat) (hb : o * o + o + 1 < 2 ^ 31) :
    ∃ s, constructVertices o = some s ∧ VInv o (o * o + o + 1) s := by
  have h1 : VInv o 1 ⟨1, (List.replicate (o * o + o + 1) none).set 0 (some ⟨1, 0, 0, 0⟩), [0]⟩ := by
    refine ⟨rfl, by simp [List.range_succ], by simp, ?_⟩
    intro k hk
    rw [List.getElem?_set]
    by_cases hk0 : 0 = k
    · subst hk0; simp [pointAt_zero]
    · have : ¬ k < 1 := by omega
      simp [hk0, this, hk]
  obtain ⟨s2, e2, h2⟩ := forLoop_inv
    (fun a s => (s.put s.index ⟨a, 1, 0, s.index⟩).map VState.next)
    (fun a s => VInv o (1 + a) s) 0 o _ (Nat.zero_le _) h1
    (fun a s _ ha hI => by
      have := VInv_put o (1 + a) s ⟨a, 1, 0, s.index⟩ hI (by omega)
        (by rw [pointAt_first o a ha, hI.1])
      simpa [Nat.add_assoc] using this)
  obtain ⟨s3, e3, h3⟩ := forLoop_inv
    (fun b s => forLoop 0 o
      (fun a s => (s.put s.index ⟨b, a, 1, s.index⟩).map VState.next) s)
    (fun b s => VInv o (1 + o + b * o) s) 0 o s2 (Nat.zero_le _) (by simpa using h2)
    (fun b s _ hb hI => by
      obtain ⟨s', e', h'⟩ := forLoop_inv
        (fun a s => (s.put s.index ⟨b, a, 1, s.index⟩).map VState.next)
        (fun a s => VInv o (1 + o + b * o + a) s) 0 o s (Nat.zero_le _) hI
        (fun a s _ ha hI => by
          have hlt : 1 + o + b * o + a < o * o + o + 1 := by
            have := Nat.mul_le_mul_right o (show b + 1 ≤ o from hb)
            rw [Nat.succ_mul] at this
            omega
          have := VInv_put o (1 + o + b * o + a) s ⟨b, a, 1, s.index⟩ hI hlt
            (by rw [pointAt_second o b a ha, hI.1])
          simpa [Nat.add_assoc] using this)
      refine ⟨s', e', ?_⟩
      have : 1 + o + (b + 1) * o = 1 + o + b * o + o := by rw [Nat.succ_mul]; omega
      show VInv o (1 + o + (b + 1) * o) s'
      rw [this]; exact h')
  refine ⟨s3, ?_, ?_⟩
  · have e1 : (⟨1, List.replicate (o * o + o + 1) none, []⟩ : VState).put 0 ⟨1, 0, 0, 0⟩ =
        some ⟨1, (List.replicate (o * o + o + 1) none).set 0 (some ⟨1, 0, 0, 0⟩), [0]⟩ := by
      simp [VState.put, store]
    have ev : intValue (o * o + o + 1) = some (o * o + o + 1) := by
      unfold intValue
      rw [if_pos hb]
    simp only [constructVertices, ev, e1, e2, Option.bind_eq_bind, Option.some_bind]
    exact e3
  · have : o * o + o + 1 = 1 + o + o * o := by omega
    rw [this]; exact h3

theorem constructVertices_eq (o : Nat) (hb : o * o + o + 1 < 2 ^ 31) :
    constructVertices o =
      some ⟨o * o + o + 1, (points o).map some, List.range (o * o + o + 1)⟩ := by
  obtain ⟨s, e, h1, h2, h3, h4⟩ := constructVertices_inv o hb
  rw [e]
  congr 1
  cases s with
  | mk index vertices written =>
    simp only at h1 h2 h3 h4
    subst h1 h2
    congr 1
    apply List.ext_getElem?
    intro k
    by_cases hk : k < o * o + o + 1
    · rw [h4 k hk]; simp [points, hk]
    · have h5 : vertices.length ≤ k := by omega
      have h6 : ((points o).map some).length ≤ k := by simp [points]; omega
      rw [List.getElem?_eq_none h5, List.getElem?_eq_none h6]

/-- When the size `o * o + o + 1` does not fit an `int`, `constructVertices` is undefined. -/
theorem constructVertices_overflow (o : Nat) (hb : 2 ^ 31 ≤ o * o + o + 1) :
    constructVertices o = none := by
  have ev : intValue (o * o + o + 1) = none := by
    unfold intValue
    rw [if_neg (Nat.not_lt.2 hb)]
  simp only [constructVertices, ev, Option.bind_eq_bind, Option.none_bind]

/-- The size of the vertex array fits an `int` for every order up to 100. -/
theorem vsize_lt (p : Nat) (h : p ≤ 100) : p * p + p + 1 < 2 ^ 31 := by
  have := Nat.mul_le_mul h h
  omega

/-- The size of the vertex array fits an `int` for the orders up to 46340. -/
theorem vsize_lt_of_le (p : Nat) (h : p ≤ 46340) : p * p + p + 1 < 2 ^ 31 := by
  have := Nat.mul_le_mul h h
  omega

/-- Whenever `constructVertices` returns, it returns the closed form. -/
theorem constructVertices_some (o : Nat) (vs : VState) (h : constructVertices o = some vs) :
    o * o + o + 1 < 2 ^ 31 ∧
      vs = ⟨o * o + o + 1, (points o).map some, List.range (o * o + o + 1)⟩ := by
  by_cases hb : o * o + o + 1 < 2 ^ 31
  · rw [constructVertices_eq o hb] at h
    exact ⟨hb, (Option.some.inj h).symm⟩
  · rw [constructVertices_overflow o (Nat.not_lt.1 hb)] at h
    exact Option.noConfusion h

/-! ## Flag indices -/

theorem idx_lt (o a b c : Nat) (ha : a < o) (hb : b < o) (hc : c < o) :
    idx o a b c < o * o * o := by
  unfold idx
  have h1 : a * o * o + o * o ≤ o * o * o := by
    have := Nat.mul_le_mul_right (o * o) (show a + 1 ≤ o from ha)
    rw [Nat.succ_mul, ← Nat.mul_assoc, ← Nat.mul_assoc] at this
    exact this
  have h2 : b * o + o ≤ o * o := by
    have := Nat.mul_le_mul_right o (show b + 1 ≤ o from hb)
    rw [Nat.succ_mul] at this
    exact this
  omega

theorem idx_decode (o a b c : Nat) (hb : b < o) (hc : c < o) :
    idx o a b c / (o * o) = a ∧ idx o a b c / o % o = b ∧ idx o a b c % o = c := by
  have ho : 0 < o := by omega
  have e : idx o a b c = c + o * (b + o * a) := by unfold idx; ring
  have h1 : idx o a b c % o = c := by
    rw [e, Nat.add_mul_mod_self_left, Nat.mod_eq_of_lt hc]
  have h2 : idx o a b c / o = b + o * a := by
    rw [e, Nat.add_mul_div_left _ _ ho, Nat.div_eq_of_lt hc, Nat.zero_add]
  refine ⟨?_, ?_, h1⟩
  · rw [← Nat.div_div_eq_div_mul, h2, Nat.add_mul_div_left _ _ ho, Nat.div_eq_of_lt hb,
      Nat.zero_add]
  · rw [h2, Nat.add_mul_mod_self_left, Nat.mod_eq_of_lt hb]

theorem idx_inj (o a b c a' b' c' : Nat) (hb : b < o) (hc : c < o) (hb' : b' < o)
    (hc' : c' < o) (h : idx o a b c = idx o a' b' c') : a = a' ∧ b = b' ∧ c = c' := by
  obtain ⟨h1, h2, h3⟩ := idx_decode o a b c hb hc
  obtain ⟨h1', h2', h3'⟩ := idx_decode o a' b' c' hb' hc'
  rw [h] at h1 h2 h3
  exact ⟨h1.symm.trans h1', h2.symm.trans h2', h3.symm.trans h3'⟩

theorem decode_idx (o k : Nat) (hk : k < o * o * o) :
    k / (o * o) < o ∧ k / o % o < o ∧ k % o < o ∧
      idx o (k / (o * o)) (k / o % o) (k % o) = k := by
  have ho : 0 < o := by
    rcases Nat.eq_zero_or_pos o with h | h
    · subst h; simp at hk
    · exact h
  refine ⟨?_, Nat.mod_lt _ ho, Nat.mod_lt _ ho, ?_⟩
  · rw [Nat.div_lt_iff_lt_mul (Nat.mul_pos ho ho)]
    calc k < o * o * o := hk
      _ = o * (o * o) := by ring
  · unfold idx
    have h1 := Nat.div_add_mod k o
    have h2 := Nat.div_add_mod (k / o) o
    rw [Nat.div_div_eq_div_mul] at h2
    calc k / (o * o) * o * o + k / o % o * o + k % o
        = o * (o * (k / (o * o)) + k / o % o) + k % o := by ring
      _ = k := by rw [h2, h1]

theorem markIdx_eq (o i a b c : Nat) :
    markIdx o i a b c = idx o ((i * a) % o) ((i * b) % o) ((i * c) % o) := rfl

theorem markIdx_lt (o i a b c : Nat) (ho : 0 < o) : markIdx o i a b c < o * o * o := by
  rw [markIdx_eq]
  exact idx_lt o _ _ _ (Nat.mod_lt _ ho) (Nat.mod_lt _ ho) (Nat.mod_lt _ ho)

theorem isRep_iff (a b c : Nat) :
    isRep a b c = true ↔ (a = 0 ∧ b = 0 ∧ c = 1) ∨ (a = 0 ∧ b = 1) ∨ a = 1 := by
  simp only [isRep, Bool.or_eq_true, Bool.and_eq_true, beq_iff_eq]
  tauto

theorem idx_ne_zero_of_isRep (o a b c : Nat) (h : isRep a b c = true) (ho : 0 < o) :
    idx o a b c ≠ 0 := by
  rw [isRep_iff] at h
  unfold idx
  rcases h with ⟨_, _, h⟩ | ⟨_, h⟩ | h
  · omega
  · subst h; omega
  · subst h
    have := Nat.mul_pos ho ho
    simp only [Nat.one_mul]
    omega

/-! ## Representatives and their multiples -/

theorem isRep_mark_false (o i a b c : Nat) (h : isRep a b c = true) (hi : 2 ≤ i)
    (hio : i < o) : isRep ((i * a) % o) ((i * b) % o) ((i * c) % o) = false := by
  rw [isRep_iff] at h
  rw [Bool.eq_false_iff]
  intro hr
  rw [isRep_iff] at hr
  have hm : i % o = i := Nat.mod_eq_of_lt hio
  rcases h with ⟨h1, h2, h3⟩ | ⟨h1, h2⟩ | h1
  · subst h1 h2 h3
    simp only [Nat.mul_zero, Nat.zero_mod, Nat.mul_one, hm] at hr
    omega
  · subst h1 h2
    simp only [Nat.mul_zero, Nat.zero_mod, Nat.mul_one, hm] at hr
    omega
  · subst h1
    simp only [Nat.mul_one, hm] at hr
    omega

theorem exists_inverse (p l : Nat) (hp : p.Prime) (hl : 0 < l) (hlp : l < p) :
    ∃ j, j < p ∧ (l * j) % p = 1 := by
  have hco : Nat.Coprime l p :=
    (Nat.coprime_comm).1 ((Nat.Prime.coprime_iff_not_dvd hp).2
      (Nat.not_dvd_of_pos_of_lt hl hlp))
  obtain ⟨m, hm⟩ := Nat.exists_mul_emod_eq_one_of_coprime hco hp.one_lt
  refine ⟨m % p, Nat.mod_lt _ hp.pos, ?_⟩
  rw [Nat.mul_mod, Nat.mod_mod, ← Nat.mul_mod]
  exact hm

theorem mul_inverse_cancel (p l j x : Nat) (h : (l * j) % p = 1) (hx : x < p) :
    (l * ((j * x) % p)) % p = x := by
  rw [Nat.mul_mod, Nat.mod_mod, ← Nat.mul_mod, ← Nat.mul_assoc, Nat.mul_mod, h, Nat.one_mul,
    Nat.mod_mod, Nat.mod_eq_of_lt hx]

theorem exists_rep_of_not_rep (p a b c : Nat) (hp : p.Prime) (ha : a < p) (hb : b < p)
    (hc : c < p) (h0 : idx p a b c ≠ 0) (hr : isRep a b c = false) :
    ∃ a' b' c' i, a' < p ∧ b' < p ∧ c' < p ∧ isRep a' b' c' = true ∧
      idx p a' b' c' < idx p a b c ∧ 2 ≤ i ∧ i < p ∧ markIdx p i a' b' c' = idx p a b c := by
  have hpos : 0 < p := hp.pos
  have h2 : 2 ≤ p := hp.two_le
  rw [Bool.eq_false_iff, Ne, isRep_iff] at hr
  -- the leading coordinate `l` of `(a, b, c)` is at least 2
  have key : ∀ l, 2 ≤ l → l < p → (∀ j, (l * j) % p = 1 →
      isRep ((j * a) % p) ((j * b) % p) ((j * c) % p) = true ∧
      idx p ((j * a) % p) ((j * b) % p) ((j * c) % p) < idx p a b c) →
      ∃ a' b' c' i, a' < p ∧ b' < p ∧ c' < p ∧ isRep a' b' c' = true ∧
      idx p a' b' c' < idx p a b c ∧ 2 ≤ i ∧ i < p ∧ markIdx p i a' b' c' = idx p a b c := by
    intro l hl hlp hkey
    obtain ⟨j, _, hj⟩ := exists_inverse p l hp (by omega) hlp
    obtain ⟨k1, k2⟩ := hkey j hj
    refine ⟨(j * a) % p, (j * b) % p, (j * c) % p, l, Nat.mod_lt _ hpos, Nat.mod_lt _ hpos,
      Nat.mod_lt _ hpos, k1, k2, hl, hlp, ?_⟩
    rw [markIdx_eq, mul_inverse_cancel p l j a hj ha, mul_inverse_cancel p l j b hj hb,
      mul_inverse_cancel p l j c hj hc]
  have hpp : 2 * p ≤ p * p := Nat.mul_le_mul_right p h2
  by_cases ha0 : a = 0
  · by_cases hb0 : b = 0
    · subst ha0 hb0
      have hc2 : 2 ≤ c := by
        have : c ≠ 0 := by intro h; subst h; simp [idx] at h0
        have : c ≠ 1 := by intro h; apply hr; left; exact ⟨rfl, rfl, h⟩
        omega
      apply key c hc2 hc
      intro j hj
      have e : (j * c) % p = 1 := by rw [Nat.mul_comm]; exact hj
      rw [e]
      simp only [Nat.mul_zero, Nat.zero_mod]
      refine ⟨by decide, ?_⟩
      simp only [idx]; omega
    · subst ha0
      have hb2 : 2 ≤ b := by
        have : b ≠ 1 := by intro h; apply hr; right; left; exact ⟨rfl, h⟩
        omega
      apply key b hb2 hb
      intro j hj
      have e : (j * b) % p = 1 := by rw [Nat.mul_comm]; exact hj
      rw [e]
      simp only [Nat.mul_zero, Nat.zero_mod]
      refine ⟨by simp [isRep], ?_⟩
      have hlt : (j * c) % p < p := Nat.mod_lt _ hpos
      have : 2 * p ≤ b * p := Nat.mul_le_mul_right p hb2
      simp only [idx]; omega
  · have ha2 : 2 ≤ a := by
      have : a ≠ 1 := by intro h; apply hr; right; right; exact h
      omega
    apply key a ha2 ha
    intro j hj
    have e : (j * a) % p = 1 := by rw [Nat.mul_comm]; exact hj
    rw [e]
    refine ⟨by simp [isRep], ?_⟩
    have hlt : (j * c) % p < p := Nat.mod_lt _ hpos
    have hlt2 : (j * b) % p < p := Nat.mod_lt _ hpos
    have h3 : (j * b) % p * p + p ≤ p * p := by
      have := Nat.mul_le_mul_right p (show (j * b) % p + 1 ≤ p from hlt2)
      rw [Nat.succ_mul] at this; exact this
    have h4 : 2 * (p * p) ≤ a * p * p := by
      have := Nat.mul_le_mul_right (p * p) ha2
      rw [← Nat.mul_assoc a] at this; exact this
    simp only [idx, Nat.one_mul]; omega

/-! ## Which flags stay set -/

theorem fresh_isRep (p n a b c : Nat) (hp : p.Prime) (ha : a < p) (hb : b < p) (hc : c < p)
    (hn : idx p a b c ≤ n) (h : Fresh p n (idx p a b c)) : isRep a b c = true := by
  by_contra hr
  rw [Bool.not_eq_true] at hr
  obtain ⟨a', b', c', i, ha', hb', hc', hrep, hlt, hi, hip, hmark⟩ :=
    exists_rep_of_not_rep p a b c hp ha hb hc h.1 hr
  exact h.2 a' b' c' ha' hb' hc' (by omega) hrep i hi hip hmark.symm

theorem isRep_fresh (p n a b c : Nat) (hpos : 0 < p) (hb : b < p) (hc : c < p)
    (h : isRep a b c = true) : Fresh p n (idx p a b c) := by
  refine ⟨idx_ne_zero_of_isRep p a b c h hpos, ?_⟩
  intro a' b' c' _ _ _ _ hrep i hi hip he
  rw [markIdx_eq] at he
  obtain ⟨e1, e2, e3⟩ := idx_inj p _ _ _ _ _ _ hb hc (Nat.mod_lt _ hpos) (Nat.mod_lt _ hpos) he
  have := isRep_mark_false p i a' b' c' hrep hi hip
  rw [← e1, ← e2, ← e3, h] at this
  exact Bool.noConfusion this

theorem fresh_succ_of_rep (p a b c k : Nat) (hb : b < p) (hc : c < p)
    (ha : a < p) (h : isRep a b c = true) :
    Fresh p (idx p a b c + 1) k ↔
      Fresh p (idx p a b c) k ∧ ∀ i, 2 ≤ i → i < p → k ≠ markIdx p i a b c := by
  constructor
  · intro hf
    refine ⟨⟨hf.1, fun a' b' c' ha' hb' hc' hlt hrep => 
      hf.2 a' b' c' ha' hb' hc' (by omega) hrep⟩, ?_⟩
    exact hf.2 a b c ha hb hc (by omega) h
  · rintro ⟨hf, hm⟩
    refine ⟨hf.1, ?_⟩
    intro a' b' c' ha' hb' hc' hlt hrep
    by_cases he : idx p a' b' c' = idx p a b c
    · obtain ⟨e1, e2, e3⟩ := idx_inj p _ _ _ _ _ _ hb' hc' hb hc he
      subst e1 e2 e3
      exact hm
    · exact hf.2 a' b' c' ha' hb' hc' (by omega) hrep

theorem fresh_succ_of_not_rep (p a b c k : Nat) (hb : b < p) (hc : c < p)
    (h : isRep a b c = false) :
    Fresh p (idx p a b c + 1) k ↔ Fresh p (idx p a b c) k := by
  constructor
  · intro hf
    exact ⟨hf.1, fun a' b' c' ha' hb' hc' hlt hrep => 
      hf.2 a' b' c' ha' hb' hc' (by omega) hrep⟩
  · intro hf
    refine ⟨hf.1, ?_⟩
    intro a' b' c' ha' hb' hc' hlt hrep
    by_cases he : idx p a' b' c' = idx p a b c
    · obtain ⟨e1, e2, e3⟩ := idx_inj p _ _ _ _ _ _ hb' hc' hb hc he
      subst e1 e2 e3
      rw [h] at hrep
      exact Bool.noConfusion hrep
    · exact hf.2 a' b' c' ha' hb' hc' (by omega) hrep

/-- Once the whole triple loop has run, the set flags are exactly the representatives. -/
theorem fresh_final (p k : Nat) (hp : p.Prime) (hk : k < p * p * p) :
    Fresh p (p * p * p) k ↔ repIdx p k = true := by
  obtain ⟨h1, h2, h3, h4⟩ := decode_idx p k hk
  unfold repIdx
  constructor
  · intro hf
    rw [← h4] at hf
    exact fresh_isRep p _ _ _ _ hp h1 h2 h3 (by rw [h4]; omega) hf
  · intro hr
    have := isRep_fresh p (p * p * p) _ _ _ hp.pos h2 h3 hr
    rw [h4] at this
    exact this

/-! ## The incidence scan -/

theorem take_set_self {α : Type} (l : List α) (j : Nat) (x : α) :
    (l.set j x).take j = l.take j := by
  rw [List.set_take]
  exact List.set_eq_of_length_le (by simp)

theorem scan_eq (o a b c : Nat) :
    ∀ (vs : List Vector) (j : Nat) (line : List (Option Vector)), line.length = o + 1 →
      j + (vs.filter (onLine o a b c)).length = o + 1 →
      scan o (Vector.mk3 a b c) (vs.map some) j line =
        some (line.take j ++ (vs.filter (onLine o a b c)).map some) := by
  intro vs
  induction vs with
  | nil =>
    intro j line hl hj
    simp only [List.filter_nil, List.length_nil, Nat.add_zero] at hj
    have : ¬ j ≤ o := by omega
    simp only [List.map_nil, scan, this, if_false, List.filter_nil, List.append_nil]
    rw [List.take_of_length_le (by omega)]
  | cons v rest ih =>
    intro j line hl hj
    simp only [List.map_cons, scan]
    by_cases hjo : j ≤ o
    · simp only [hjo, if_true]
      by_cases hv : v.dotProduct (Vector.mk3 a b c) % o = 0
      · have hon : onLine o a b c v = true := by simp [onLine, hv]
        simp only [hv, if_true, store, hl, show j < o + 1 by omega, Option.some_bind]
        simp only [List.filter_cons, hon, if_true, List.length_cons] at hj ⊢
        rw [ih (j + 1) _ (by simp [hl]) (by omega)]
        congr 1
        rw [List.take_succ]
        simp [List.getElem?_set, hl, show j < o + 1 by omega, take_set_self]
      · have hon : onLine o a b c v = false := by simp [onLine, hv]
        simp only [hv, if_false]
        simp only [List.filter_cons, hon] at hj ⊢
        exact ih j line hl hj
    · simp only [hjo, if_false]
      have hz : (List.filter (onLine o a b c) (v :: rest)).length = 0 := by omega
      rw [List.length_eq_zero] at hz
      rw [hz, List.map_nil, List.append_nil, List.take_of_length_le (by omega)]

/-! ## Counting over ranges -/

open Finset

theorem length_filter_range (n : Nat) (P : Nat → Bool) :
    ((List.range n).filter P).length = ∑ k ∈ range n, if P k = true then 1 else 0 := by
  induction n with
  | zero => simp
  | succ n ih =>
    rw [List.range_succ, List.filter_append, List.length_append, ih, sum_range_succ]
    congr 1
    by_cases h : P n = true <;> simp [h]

theorem sum_range_mul (m p : Nat) (g : Nat → Nat) :
    ∑ k ∈ range (m * p), g k = ∑ b ∈ range m, ∑ a ∈ range p, g (b * p + a) := by
  induction m with
  | zero => simp
  | succ m ih => rw [Nat.succ_mul, sum_range_add, ih, sum_range_succ]

theorem sum_points (p : Nat) (g : Nat → Nat) :
    ∑ k ∈ range (p * p + p + 1), g k =
      g 0 + ∑ a ∈ range p, g (1 + a) + ∑ b ∈ range p, ∑ a ∈ range p, g (1 + p + b * p + a) := by
  have e : p * p + p + 1 = 1 + p + p * p := by ring
  rw [e, sum_range_add, sum_range_add, sum_range_one, sum_range_mul]
  simp only [Nat.add_assoc]

theorem add_mod_eq_zero_iff (p t m : Nat) (ht : t < p) :
    (t + m) % p = 0 ↔ t = (p - m % p) % p := by
  have hp : 0 < p := by omega
  have hr : m % p < p := Nat.mod_lt _ hp
  rw [Nat.add_mod, Nat.mod_eq_of_lt ht]
  generalize m % p = r at hr
  by_cases h0 : r = 0
  · subst h0
    simp [Nat.mod_eq_of_lt ht]
  · rw [Nat.mod_eq_of_lt (show p - r < p by omega)]
    by_cases hlt : t + r < p
    · rw [Nat.mod_eq_of_lt hlt]; omega
    · rw [Nat.mod_eq_sub_mod (by omega), Nat.mod_eq_of_lt (show t + r - p < p by omega)]
      omega

theorem sum_unique (p m : Nat) (hp : 0 < p) :
    ∑ t ∈ range p, (if (t + m) % p = 0 then 1 else 0) = 1 := by
  have : ∀ t ∈ range p, (if (t + m) % p = 0 then 1 else 0) =
      if t = (p - m % p) % p then 1 else 0 := by
    intro t ht
    rw [mem_range] at ht
    simp only [add_mod_eq_zero_iff p t m ht]
  rw [sum_congr rfl this, sum_ite_eq']
  simp [Nat.mod_lt _ hp]

/-! ## Points on a line -/


/-- Number of solutions, over the three coordinate patches, of the incidence equation
with a vector `(x, y, z)` whose first nonzero coordinate is 1. -/
theorem patch_count (p x y z : Nat) (hp : 2 ≤ p) (h : isRep x y z = true) :
    (if x % p = 0 then 1 else 0) +
      ∑ t ∈ range p, (if (t * x + y) % p = 0 then 1 else 0) +
      ∑ s ∈ range p, ∑ t ∈ range p, (if (s * x + t * y + z) % p = 0 then 1 else 0) =
      p + 1 := by
  have hpos : 0 < p := by omega
  have h1 : 1 % p = 1 := Nat.mod_eq_of_lt (by omega)
  rw [isRep_iff] at h
  rcases h with ⟨hx, hy, hz⟩ | ⟨hx, hy⟩ | hx
  · subst hx hy hz
    simp [h1]
    omega
  · subst hx hy
    simp only [Nat.mul_zero, Nat.zero_mod, if_true, Nat.zero_add, h1, Nat.mul_one]
    have : ∀ s ∈ range p, ∑ t ∈ range p, (if (t + z) % p = 0 then 1 else 0) = 1 :=
      fun s _ => sum_unique p z hpos
    rw [sum_congr rfl this]
    simp
    omega
  · subst hx
    simp only [Nat.mul_one, h1]
    rw [sum_unique p y hpos, sum_comm]
    have : ∀ t ∈ range p, ∑ s ∈ range p, (if (s + t * y + z) % p = 0 then 1 else 0) = 1 := by
      intro t _
      have := sum_unique p (t * y + z) hpos
      simpa only [Nat.add_assoc] using this
    rw [sum_congr rfl this]
    simp
    omega

theorem patch_count_swap (p x y z : Nat) (hp : 2 ≤ p) (h : isRep x y z = true) :
    (if x % p = 0 then 1 else 0) +
      ∑ t ∈ range p, (if (t * x + y) % p = 0 then 1 else 0) +
      ∑ t ∈ range p, ∑ s ∈ range p, (if (s * x + t * y + z) % p = 0 then 1 else 0) =
      p + 1 := by
  rw [sum_comm]
  exact patch_count p x y z hp h

theorem onLine_iff (o a b c : Nat) (v : Vector) :
    onLine o a b c v = true ↔ (v.x1 * a + v.x2 * b + v.x3 * c) % o = 0 := by
  simp [onLine, Vector.dotProduct, Vector.getX, Vector.mk3]

theorem length_filter_points (p : Nat) (P : Vector → Bool) :
    ((points p).filter P).length =
      (if P ⟨1, 0, 0, 0⟩ = true then 1 else 0) +
      ∑ a ∈ range p, (if P ⟨a, 1, 0, 1 + a⟩ = true then 1 else 0) +
      ∑ b ∈ range p, ∑ a ∈ range p, (if P ⟨b, a, 1, 1 + p + b * p + a⟩ = true then 1 else 0) := by
  rw [points, List.filter_map, List.length_map, length_filter_range, sum_points]
  simp only [Function.comp, pointAt_zero]
  congr 1
  · congr 1
    apply sum_congr rfl
    intro a ha
    simp only [pointAt_first p a (mem_range.1 ha)]
  · apply sum_congr rfl
    intro b _
    apply sum_congr rfl
    intro a ha
    simp only [pointAt_second p b a (mem_range.1 ha)]

/-- A representative vector is incident with exactly `p + 1` points. -/
theorem length_line (p a b c : Nat) (hp : 2 ≤ p) (h : isRep a b c = true) :
    ((points p).filter (onLine p a b c)).length = p + 1 := by
  rw [length_filter_points, ← patch_count p a b c hp h]
  simp only [onLine_iff, Nat.one_mul, Nat.zero_mul, Nat.add_zero]

/-! ## One round of the triple loop -/

theorem mark_loop (p a b c : Nat) (hp : 2 ≤ p) (u : List Bool) (P : Nat → Prop)
    (hl : u.length = p * p * p) (hu : ∀ k, k < p * p * p → (u[k]? = some true ↔ P k)) :
    ∃ u', forLoop 2 p (fun i u =>
        store u (((i * a) % p) * p * p + ((i * b) % p) * p + (i * c) % p) false) u = some u' ∧
      u'.length = p * p * p ∧
      ∀ k, k < p * p * p →
        (u'[k]? = some true ↔ P k ∧ ∀ i, 2 ≤ i → i < p → k ≠ markIdx p i a b c) := by
  obtain ⟨u', e, h1, h2⟩ := forLoop_inv
    (fun i u => store u (((i * a) % p) * p * p + ((i * b) % p) * p + (i * c) % p) false)
    (fun i u => u.length = p * p * p ∧ ∀ k, k < p * p * p →
        (u[k]? = some true ↔ P k ∧ ∀ i', 2 ≤ i' → i' < i → k ≠ markIdx p i' a b c))
    2 p u hp
    ⟨hl, fun k hk => by
      rw [hu k hk]
      exact ⟨fun h => ⟨h, fun i' h1 h2 => by omega⟩, fun h => h.1⟩⟩
    (fun i u _ hi hI => by
      obtain ⟨hlen, hI⟩ := hI
      have hm : markIdx p i a b c < p * p * p := markIdx_lt p i a b c (by omega)
      refine ⟨u.set (markIdx p i a b c) false, ?_, by simp [hlen], ?_⟩
      · show store u (markIdx p i a b c) false = _
        simp [store, hlen, hm]
      · intro k hk
        rw [List.getElem?_set]
        by_cases hkm : markIdx p i a b c = k
        · simp only [hkm, if_true, hlen, hk]
          constructor
          · intro h; simp at h
          · rintro ⟨_, h⟩
            exact absurd hkm.symm (h i (by omega) (by omega))
        · simp only [hkm, if_false]
          rw [hI k hk]
          constructor
          · rintro ⟨h1, h2⟩
            refine ⟨h1, fun i' hi1 hi2 => ?_⟩
            by_cases hii : i' = i
            · subst hii; exact fun h => hkm h.symm
            · exact h2 i' hi1 (by omega)
          · rintro ⟨h1, h2⟩
            exact ⟨h1, fun i' hi1 hi2 => h2 i' hi1 (by omega)⟩)
  exact ⟨u', e, h1, h2⟩

theorem lineStep_inv (p a b c : Nat) (hp : p.Prime) (ha : a < p) (hb : b < p) (hc : c < p)
    (s : LState) (h : LInv p (idx p a b c) s) :
    ∃ s', lineStep ((points p).map some) p a b c s = some s' ∧
      LInv p (idx p a b c + 1) s' := by
  obtain ⟨hlu, hll, hu, hlin⟩ := h
  have hp2 : 2 ≤ p := hp.two_le
  have hn : idx p a b c < p * p * p := idx_lt p a b c ha hb hc
  obtain ⟨d1, d2, d3⟩ := idx_decode p a b c hb hc
  have hrepn : repIdx p (idx p a b c) = isRep a b c := by
    unfold repIdx; rw [d1, d2, d3]
  have hget : s.unique[idx p a b c]? = some (s.unique[idx p a b c]) :=
    List.getElem?_eq_getElem (by omega)
  have hidx : a * p * p + b * p + c = idx p a b c := rfl
  cases hfr : s.unique[idx p a b c] with
  | false =>
    rw [hfr] at hget
    refine ⟨s, ?_, hlu, hll, ?_, ?_⟩
    · simp [lineStep, hidx, hget]
    · have hnf : ¬ Fresh p (idx p a b c) (idx p a b c) := by
        rw [← hu _ hn, hget]; simp
      have hr : isRep a b c = false := by
        rw [Bool.eq_false_iff]
        exact fun hr => hnf (isRep_fresh p _ a b c hp.pos hb hc hr)
      intro k hk
      rw [hu k hk, fresh_succ_of_not_rep p a b c k hb hc hr]
    · have hr : isRep a b c = false := by
        rw [Bool.eq_false_iff]
        intro hr
        have := (hu _ hn).2 (isRep_fresh p _ a b c hp.pos hb hc hr)
        rw [hget] at this
        simp at this
      intro k hk
      rw [hlin k hk]
      by_cases hkn : k = idx p a b c
      · subst hkn; simp [hrepn, hr]
      · have : k < idx p a b c + 1 ↔ k < idx p a b c := by omega
        simp only [this]
  | true =>
    rw [hfr] at hget
    have hr : isRep a b c = true :=
      fresh_isRep p _ a b c hp ha hb hc (le_refl _) ((hu _ hn).1 hget)
    have hscan := scan_eq p a b c (points p) 0 (List.replicate (p + 1) none) (by simp)
      (by rw [length_line p a b c hp2 hr]; omega)
    simp only [List.take_zero, List.nil_append] at hscan
    obtain ⟨u', e, hlu', hu'⟩ := mark_loop p a b c hp2 s.unique _ hlu hu
    refine ⟨⟨u', s.lines.set (idx p a b c)
      (some (((points p).filter (onLine p a b c)).map some))⟩, ?_, hlu', by simp [hll], ?_, ?_⟩
    · have hst : store s.lines (idx p a b c)
          (some (((points p).filter (onLine p a b c)).map some)) =
          some (s.lines.set (idx p a b c)
            (some (((points p).filter (onLine p a b c)).map some))) := by
        simp [store, hll, hn]
      simp [lineStep, hidx, hget, hscan, hst, e]
    · intro k hk
      rw [hu' k hk, fresh_succ_of_rep p a b c k hb hc ha hr]
    · intro k hk
      show (s.lines.set _ _)[k]? = _
      rw [List.getElem?_set]
      by_cases hkn : idx p a b c = k
      · subst hkn
        simp [hll, hn, hrepn, hr, lineAt, d1, d2, d3]
      · simp only [hkn, if_false]
        rw [hlin k hk]
        have : k < idx p a b c + 1 ↔ k < idx p a b c := by omega
        simp only [this]

/-! ## The whole triple loop -/

theorem initUnique_eq (o : Nat) (ho : 0 < o) :
    ∃ u, initUnique o = some u ∧ u.length = o * o * o ∧
      ∀ k, k < o * o * o → u[k]? = some (decide (k ≠ 0)) := by
  have hpos : 0 < o * o * o := Nat.mul_pos (Nat.mul_pos ho ho) ho
  obtain ⟨u, e, h1, h2⟩ := forLoop_inv (fun i u => store u i true)
    (fun i u => u.length = o * o * o ∧ ∀ k, k < i → k < o * o * o → u[k]? = some (decide (k ≠ 0)))
    1 (o * o * o) ((List.replicate (o * o * o) false).set 0 false) hpos
    ⟨by simp, fun k hk hk' => by
      have : k = 0 := by omega
      subst this
      simp [List.getElem?_set, hpos]⟩
    (fun i u _ hi hI => by
      obtain ⟨hlen, hI⟩ := hI
      refine ⟨u.set i true, by simp [store, hlen, hi], by simp [hlen], ?_⟩
      intro k hk hk'
      rw [List.getElem?_set]
      by_cases hik : i = k
      · subst hik
        simp [hlen, hi]
        omega
      · simp only [hik, if_false]
        exact hI k (by omega) hk')
  refine ⟨u, ?_, h1, fun k hk => h2 k hk hk⟩
  have e0 : store (List.replicate (o * o * o) false) 0 false =
      some ((List.replicate (o * o * o) false).set 0 false) := by
    simp [store, hpos]
  simp only [initUnique, e0, Option.bind_eq_bind, Option.some_bind]
  exact e

theorem repIdx_zero (o : Nat) : repIdx o 0 = false := by
  simp [repIdx, isRep]

theorem constructLines_inv (p : Nat) (hp : p.Prime) (u : List Bool)
    (hl : u.length = p * p * p) (hu : ∀ k, k < p * p * p → u[k]? = some (decide (k ≠ 0))) :
    ∃ st, constructLines ((points p).map some) u p = some st ∧ LInv p (p * p * p) st := by
  have h0 : LInv p (idx p 0 0 0) ⟨u, List.replicate (p * p * p) none⟩ := by
    refine ⟨hl, by simp, ?_, ?_⟩
    · intro k hk
      rw [hu k hk]
      simp only [Option.some.injEq, decide_eq_true_eq]
      exact ⟨fun h => ⟨h, fun a b c _ _ _ hlt => by simp [idx] at hlt⟩, fun h => h.1⟩
    · intro k hk
      simp [idx, hk]
  obtain ⟨st, e, h⟩ := forLoop_inv
    (fun a s => forLoop 0 p (fun b s =>
      forLoop 0 p (fun c s => lineStep ((points p).map some) p a b c s) s) s)
    (fun a s => LInv p (idx p a 0 0) s) 0 p _ (Nat.zero_le _) h0
    (fun a s _ ha hI => by
      obtain ⟨s', e', h'⟩ := forLoop_inv
        (fun b s => forLoop 0 p (fun c s => lineStep ((points p).map some) p a b c s) s)
        (fun b s => LInv p (idx p a b 0) s) 0 p s (Nat.zero_le _) hI
        (fun b s _ hb hI => by
          obtain ⟨s', e', h'⟩ := forLoop_inv
            (fun c s => lineStep ((points p).map some) p a b c s)
            (fun c s => LInv p (idx p a b c) s) 0 p s (Nat.zero_le _) hI
            (fun c s _ hc hI => lineStep_inv p a b c hp ha hb hc s hI)
          refine ⟨s', e', ?_⟩
          have : idx p a (b + 1) 0 = idx p a b p := by simp only [idx]; ring
          show LInv p (idx p a (b + 1) 0) s'
          rw [this]; exact h')
      refine ⟨s', e', ?_⟩
      have : idx p (a + 1) 0 0 = idx p a p 0 := by simp only [idx]; ring
      show LInv p (idx p (a + 1) 0 0) s'
      rw [this]; exact h')
  refine ⟨st, e, ?_⟩
  have : idx p p 0 0 = p * p * p := by simp [idx]
  rw [← this]; exact h

theorem constructLines_eq (p : Nat) (hp : p.Prime) (u : List Bool)
    (hl : u.length = p * p * p) (hu : ∀ k, k < p * p * p → u[k]? = some (decide (k ≠ 0))) :
    constructLines ((points p).map some) u p = some ⟨finalUnique p, finalLines p⟩ := by
  obtain ⟨st, e, h1, h2, h3, h4⟩ := constructLines_inv p hp u hl hu
  rw [e]
  congr 1
  cases st with
  | mk unique lines =>
    simp only at h1 h2 h3 h4
    congr 1
    · apply List.ext_getElem?
      intro k
      by_cases hk : k < p * p * p
      · have hget : unique[k]? = some (unique[k]) := List.getElem?_eq_getElem (by omega)
        have := h3 k hk
        rw [fresh_final p k hp hk] at this
        rw [hget] at this ⊢
        simp only [finalUnique, List.getElem?_map, List.getElem?_range hk, Option.map_some']
        congr 1
        cases hb : unique[k] <;> cases hr : repIdx p k <;> simp [hb, hr] at this ⊢
      · rw [List.getElem?_eq_none (by omega), List.getElem?_eq_none (by simp [finalUnique]; omega)]
    · apply List.ext_getElem?
      intro k
      by_cases hk : k < p * p * p
      · rw [h4 k hk]
        simp [finalLines, List.getElem?_range hk, hk]
      · rw [List.getElem?_eq_none (by omega), List.getElem?_eq_none (by simp [finalLines]; omega)]

/-! ## Output of the core -/

theorem lineIds_eq (o : Nat) (vs : List Vector) (h : vs.length = o + 1) :
    lineIds o (vs.map some) = some (vs.map Vector.getId) := by
  obtain ⟨acc, e, hI⟩ := forLoop_inv
    (fun j acc => do
      let v ← (((vs.map some)[j]?).join : Option Vector)
      pure (acc ++ [v.getId]))
    (fun j acc => acc = (vs.take j).map Vector.getId) 0 (o + 1) [] (Nat.zero_le _) (by simp)
    (fun j acc _ hj hI => by
      have hj' : j < vs.length := by omega
      refine ⟨acc ++ [(vs[j]).getId], ?_, ?_⟩
      · simp [List.getElem?_map, List.getElem?_eq_getElem hj']
      · show acc ++ [(vs[j]).getId] = _
        have hI' : acc = (vs.take j).map Vector.getId := hI
        rw [hI', List.take_succ, List.getElem?_eq_getElem hj']
        simp only [Option.toList, List.map_append, List.map_cons, List.map_nil])
  rw [← h, List.take_length] at hI
  rw [← hI]
  exact e

theorem emitLines_eq (p : Nat) (hp : 2 ≤ p) :
    emitLines p ⟨finalUnique p, finalLines p⟩ = some ((repList p).map (idsAt p)) := by
  have hpos : 0 < p * p * p := Nat.mul_pos (Nat.mul_pos (by omega) (by omega)) (by omega)
  obtain ⟨out, e, hI⟩ := forLoop_inv
    (fun i out => do
      let fresh ← (finalUnique p)[i]?
      if !fresh then pure out else
        let ln ← (((finalLines p)[i]?).join : Option (List (Option Vector)))
        let ids ← lineIds p ln
        pure (out ++ [ids]))
    (fun i out => out = ((List.range i).filter (repIdx p)).map (idsAt p))
    1 (p * p * p) [] hpos (by simp [List.range_succ, repIdx_zero])
    (fun i out _ hi hI => by
      have h1 : (finalUnique p)[i]? = some (repIdx p i) := by
        simp [finalUnique, List.getElem?_range hi]
      have h2 : (finalLines p)[i]? =
          some (if repIdx p i = true then some ((lineAt p i).map some) else none) := by
        simp [finalLines, List.getElem?_range hi]
      cases hr : repIdx p i with
      | false =>
        refine ⟨out, by simp [h1, hr], ?_⟩
        show out = _
        rw [List.range_succ, List.filter_append, hI]
        simp [hr]
      | true =>
        have hlen : (lineAt p i).length = p + 1 := by
          unfold lineAt
          exact length_line p _ _ _ hp hr
        refine ⟨out ++ [idsAt p i], ?_, ?_⟩
        · simp [h1, h2, hr, lineIds_eq p (lineAt p i) hlen, idsAt]
        · show out ++ [idsAt p i] = _
          rw [List.range_succ, List.filter_append, hI]
          simp [hr])
  rw [hI] at e
  exact e

/-- For a prime order whose vertex array size fits an `int` the core runs to completion,
and this is what it produces. -/
theorem run_eq (p : Nat) (hp : p.Prime) (hb : p * p + p + 1 < 2 ^ 31) :
    run p = some ⟨(points p).map some, List.range (p * p + p + 1), finalUnique p,
      finalLines p, (repList p).map (idsAt p)⟩ := by
  obtain ⟨u, e1, h1, h2⟩ := initUnique_eq p hp.pos
  simp only [run, constructVertices_eq p hb, e1, constructLines_eq p hp u h1 h2,
    emitLines_eq p hp.two_le, Option.bind_eq_bind, Option.some_bind, Option.pure_def]

/-! ## Counting representatives -/


theorem repIdx_idx (p a b c : Nat) (hb : b < p) (hc : c < p) :
    repIdx p (idx p a b c) = isRep a b c := by
  obtain ⟨d1, d2, d3⟩ := idx_decode p a b c hb hc
  unfold repIdx; rw [d1, d2, d3]

theorem sum_cube (p : Nat) (h : Nat → Nat) :
    ∑ k ∈ range (p * p * p), h k =
      ∑ a ∈ range p, ∑ b ∈ range p, ∑ c ∈ range p, h (idx p a b c) := by
  rw [sum_range_mul, sum_range_mul]
  apply sum_congr rfl
  intro a _
  apply sum_congr rfl
  intro b _
  apply sum_congr rfl
  intro c _
  simp only [idx, Nat.add_mul]

/-- A sum over the representatives, split into the three shapes `(0,0,1)`, `(0,1,c)`,
`(1,b,c)`. -/
theorem sum_reps (p : Nat) (hp : 2 ≤ p) (g : Nat → Nat → Nat → Nat) :
    ∑ a ∈ range p, ∑ b ∈ range p, ∑ c ∈ range p, (if isRep a b c = true then g a b c else 0) =
      g 0 0 1 + ∑ c ∈ range p, g 0 1 c + ∑ b ∈ range p, ∑ c ∈ range p, g 1 b c := by
  have e : ∀ a b c, (if isRep a b c = true then g a b c else 0) =
      (if a = 0 then (if b = 0 then (if c = 1 then g 0 0 1 else 0) else 0) +
        (if b = 1 then g 0 1 c else 0) else 0) + (if a = 1 then g 1 b c else 0) := by
    intro a b c
    by_cases ha0 : a = 0
    · subst ha0
      by_cases hb0 : b = 0
      · subst hb0
        by_cases hc1 : c = 1
        · subst hc1; simp [isRep]
        · simp [isRep, hc1]
      · by_cases hb1 : b = 1
        · subst hb1; simp [isRep]
        · simp [isRep, hb0, hb1]
    · by_cases ha1 : a = 1
      · subst ha1; simp [isRep]
      · simp [isRep, ha0, ha1]
  have m0 : 0 ∈ range p := mem_range.2 (by omega)
  have m1 : 1 ∈ range p := mem_range.2 (by omega)
  have inner : ∑ b ∈ range p, ∑ c ∈ range p,
      ((if b = 0 then (if c = 1 then g 0 0 1 else 0) else 0) + (if b = 1 then g 0 1 c else 0)) =
      g 0 0 1 + ∑ c ∈ range p, g 0 1 c := by
    have : ∀ b ∈ range p, ∑ c ∈ range p,
        ((if b = 0 then (if c = 1 then g 0 0 1 else 0) else 0) +
          (if b = 1 then g 0 1 c else 0)) =
        (if b = 0 then g 0 0 1 else 0) + (if b = 1 then ∑ c ∈ range p, g 0 1 c else 0) := by
      intro b _
      by_cases hb0 : b = 0
      · subst hb0; simp [sum_ite_eq', m1]
      · by_cases hb1 : b = 1
        · subst hb1; simp
        · simp [hb0, hb1]
    rw [sum_congr rfl this, sum_add_distrib, sum_ite_eq', sum_ite_eq']
    simp [m0, m1]
  have outer : ∀ a ∈ range p, ∑ b ∈ range p, ∑ c ∈ range p,
      (if isRep a b c = true then g a b c else 0) =
      (if a = 0 then g 0 0 1 + ∑ c ∈ range p, g 0 1 c else 0) +
        (if a = 1 then ∑ b ∈ range p, ∑ c ∈ range p, g 1 b c else 0) := by
    intro a _
    simp only [e]
    by_cases ha0 : a = 0
    · subst ha0; simpa using inner
    · by_cases ha1 : a = 1
      · subst ha1; simp
      · simp [ha0, ha1]
  rw [sum_congr rfl outer, sum_add_distrib, sum_ite_eq', sum_ite_eq']
  simp [m0, m1]

theorem length_filter_reps (p : Nat) (hp : 2 ≤ p) (Q : Nat → Nat → Nat → Bool) :
    ((repList p).filter (fun k => Q (k / (p * p)) (k / p % p) (k % p))).length =
      (if Q 0 0 1 = true then 1 else 0) + ∑ c ∈ range p, (if Q 0 1 c = true then 1 else 0) +
      ∑ b ∈ range p, ∑ c ∈ range p, (if Q 1 b c = true then 1 else 0) := by
  rw [repList, List.filter_filter, length_filter_range, sum_cube,
    ← sum_reps p hp (fun a b c => if Q a b c = true then 1 else 0)]
  apply sum_congr rfl
  intro a _
  apply sum_congr rfl
  intro b hb
  apply sum_congr rfl
  intro c hc
  obtain ⟨d1, d2, d3⟩ := idx_decode p a b c (mem_range.1 hb) (mem_range.1 hc)
  rw [repIdx_idx p a b c (mem_range.1 hb) (mem_range.1 hc), d1, d2, d3]
  by_cases h1 : isRep a b c = true <;> by_cases h2 : Q a b c = true <;> simp [h1, h2]

theorem length_repList (p : Nat) (hp : 2 ≤ p) : (repList p).length = p * p + p + 1 := by
  have := length_filter_reps p hp (fun _ _ _ => true)
  simp only [List.filter_true, if_true, sum_const, card_range, smul_eq_mul, Nat.mul_one] at this
  rw [this]; ring

/-! ## Flags left set -/


theorem finalUnique_get (p i : Nat) (hi : i < p * p * p) :
    (finalUnique p)[i]? = some (repIdx p i) := by
  simp [finalUnique, List.getElem?_range hi]

theorem filter_flags_eq (p : Nat) (hp : 0 < p) :
    (List.range' 1 (p * p * p - 1)).filter
      (fun i => decide ((finalUnique p)[i]? = some true)) = repList p := by
  have hpos : 0 < p * p * p := Nat.mul_pos (Nat.mul_pos hp hp) hp
  have e : List.range (p * p * p) = 0 :: List.range' 1 (p * p * p - 1) := by
    rw [List.range_eq_range']
    obtain ⟨m, hm⟩ : ∃ m, p * p * p = m + 1 := ⟨p * p * p - 1, by omega⟩
    rw [hm]
    simp [List.range'_succ]
  rw [repList, e, List.filter_cons, repIdx_zero]
  simp only [Bool.false_eq_true, if_false]
  apply List.filter_congr
  intro i hi
  rw [List.mem_range'_1] at hi
  rw [finalUnique_get p i (by omega)]
  cases repIdx p i <;> simp

/-! ## Positions of the points -/


theorem pointAt_id (o k : Nat) : (pointAt o k).id = k := by
  unfold pointAt
  split_ifs with h1 h2
  · exact h1.symm
  · rfl
  · rfl

theorem length_points (o : Nat) : (points o).length = o * o + o + 1 := by
  simp [points]

theorem points_get (o k : Nat) (hk : k < o * o + o + 1) :
    ((points o).map some)[k]? = some (some (pointAt o k)) := by
  simp [points, List.getElem?_range hk]

/-! ## Shape of the points and scaling -/

theorem position_cases (p k : Nat) (hk : k < p * p + p + 1) :
    k = 0 ∨ (∃ a, a < p ∧ k = 1 + a) ∨ ∃ b a, b < p ∧ a < p ∧ k = 1 + p + b * p + a := by
  by_cases h0 : k = 0
  · exact Or.inl h0
  · by_cases h1 : k ≤ p
    · exact Or.inr (Or.inl ⟨k - 1, by omega, by omega⟩)
    · have hp : 0 < p := by
        rcases Nat.eq_zero_or_pos p with h | h
        · subst h; omega
        · exact h
      refine Or.inr (Or.inr ⟨(k - 1 - p) / p, (k - 1 - p) % p, ?_, Nat.mod_lt _ hp, ?_⟩)
      · rw [Nat.div_lt_iff_lt_mul hp]; omega
      · have := Nat.div_add_mod (k - 1 - p) p
        rw [Nat.mul_comm] at this
        omega

/-- Every point has last nonzero coordinate 1, coordinates below the order, and sits at
the position computed from its coordinates. -/
theorem pointAt_shape (p k : Nat) (hp : 2 ≤ p) (hk : k < p * p + p + 1) :
    isRep (pointAt p k).x3 (pointAt p k).x2 (pointAt p k).x1 = true ∧
      (pointAt p k).x1 < p ∧ (pointAt p k).x2 < p ∧ (pointAt p k).x3 < p ∧
      posOf p (pointAt p k).x1 (pointAt p k).x2 (pointAt p k).x3 = k := by
  rcases position_cases p k hk with h | ⟨a, ha, h⟩ | ⟨b, a, hb, ha, h⟩
  · subst h
    rw [pointAt_zero]
    refine ⟨by simp [isRep], ?_, ?_, ?_, by simp [posOf]⟩ <;> simp only <;> omega
  · subst h
    rw [pointAt_first p a ha]
    refine ⟨by simp [isRep], ha, ?_, ?_, by simp [posOf]⟩ <;> simp only <;> omega
  · subst h
    rw [pointAt_second p b a ha]
    refine ⟨by simp [isRep], hb, ha, ?_, by simp [posOf]⟩
    simp only; omega

/-- Every vector with last nonzero coordinate 1 is one of the points. -/
theorem pointAt_posOf (p x1 x2 x3 : Nat) (h1 : x1 < p) (h2 : x2 < p)
    (h : isRep x3 x2 x1 = true) :
    posOf p x1 x2 x3 < p * p + p + 1 ∧
      pointAt p (posOf p x1 x2 x3) = ⟨x1, x2, x3, posOf p x1 x2 x3⟩ := by
  rw [isRep_iff] at h
  rcases h with ⟨e3, e2, e1⟩ | ⟨e3, e2⟩ | e3
  · subst e1 e2 e3
    simp [posOf, pointAt_zero]
  · subst e2 e3
    have : posOf p x1 1 0 = 1 + x1 := by simp [posOf]
    rw [this, pointAt_first p x1 h1]
    exact ⟨by have := Nat.zero_le (p * p); omega, rfl⟩
  · subst e3
    have : posOf p x1 x2 1 = 1 + p + x1 * p + x2 := by simp [posOf]
    rw [this, pointAt_second p x1 x2 h2]
    refine ⟨?_, rfl⟩
    have := Nat.mul_le_mul_right p (show x1 + 1 ≤ p from h1)
    rw [Nat.succ_mul] at this
    omega

theorem isRep_scale (o i a b c : Nat) (h : isRep a b c = true) (hi : 1 ≤ i) (hio : i < o)
    (hr : isRep ((i * a) % o) ((i * b) % o) ((i * c) % o) = true) :
    i = 1 := by
  by_contra h1
  have := isRep_mark_false o i a b c h (by omega) hio
  rw [hr] at this
  exact Bool.noConfusion this

/-- Every nonzero vector is a multiple of a vector with first nonzero coordinate 1. -/
theorem exists_rep_scale (p x y z : Nat) (hp : p.Prime) (hx : x < p) (hy : y < p)
    (hz : z < p) (h0 : ¬ (x = 0 ∧ y = 0 ∧ z = 0)) :
    ∃ a b c k, a < p ∧ b < p ∧ c < p ∧ isRep a b c = true ∧ 1 ≤ k ∧ k < p ∧
      x = (k * a) % p ∧ y = (k * b) % p ∧ z = (k * c) % p := by
  cases hr : isRep x y z with
  | true =>
    refine ⟨x, y, z, 1, hx, hy, hz, hr, le_refl 1, hp.one_lt, ?_, ?_, ?_⟩ <;>
      simp [Nat.mod_eq_of_lt, *]
  | false =>
    have hne : idx p x y z ≠ 0 := by
      intro h
      apply h0
      have h' : x * p * p + y * p + z = 0 := h
      have h1 : x * p * p = 0 := by omega
      have h2 : y * p = 0 := by omega
      have hpp : p ≠ 0 := hp.pos.ne'
      have hx0 : x = 0 := by
        rcases Nat.mul_eq_zero.1 h1 with h | h
        · rcases Nat.mul_eq_zero.1 h with h | h
          · exact h
          · exact absurd h hpp
        · exact absurd h hpp
      have hy0 : y = 0 := by
        rcases Nat.mul_eq_zero.1 h2 with h | h
        · exact h
        · exact absurd h hpp
      exact ⟨hx0, hy0, by omega⟩
    obtain ⟨a, b, c, i, ha, hb, hc, hrep, _, hi, hip, hm⟩ :=
      exists_rep_of_not_rep p x y z hp hx hy hz hne hr
    rw [markIdx_eq] at hm
    obtain ⟨e1, e2, e3⟩ := idx_inj p _ _ _ _ _ _ (Nat.mod_lt _ hp.pos) (Nat.mod_lt _ hp.pos)
      hy hz hm
    exact ⟨a, b, c, i, ha, hb, hc, hrep, by omega, hip, e1.symm, e2.symm, e3.symm⟩

/-! ## Emitted representatives -/

theorem vertex_get (p i : Nat) (u : Vector)
    (h : ((points p).map some)[i]? = some (some u)) :
    i < p * p + p + 1 ∧ u = pointAt p i := by
  by_cases hi : i < p * p + p + 1
  · rw [points_get p i hi] at h
    simp only [Option.some.injEq] at h
    exact ⟨hi, h.symm⟩
  · rw [List.getElem?_eq_none (by simp [points]; omega)] at h
    exact Option.noConfusion h

/-- The flag of `(a, b, c)` is set at the end exactly for first nonzero coordinate 1. -/
theorem emitted_iff (p a b c : Nat) (hp : 2 ≤ p) (pl : Plane) (hpl : pl.unique = finalUnique p) :
    Emitted p pl a b c ↔ a < p ∧ b < p ∧ c < p ∧ isRep a b c = true := by
  unfold Emitted
  rw [hpl]
  constructor
  · rintro ⟨ha, hb, hc, _, h⟩
    have h' : (finalUnique p)[idx p a b c]? = some true := h
    rw [finalUnique_get p _ (idx_lt p a b c ha hb hc), repIdx_idx p a b c hb hc] at h'
    exact ⟨ha, hb, hc, by simpa using h'⟩
  · rintro ⟨ha, hb, hc, h⟩
    refine ⟨ha, hb, hc, ?_, ?_⟩
    · have := idx_ne_zero_of_isRep p a b c h (by omega)
      unfold idx at this
      omega
    · show (finalUnique p)[idx p a b c]? = some true
      rw [finalUnique_get p _ (idx_lt p a b c ha hb hc), repIdx_idx p a b c hb hc, h]

theorem mul_mod_mul_mod (p j k x : Nat) : (j * ((k * x) % p)) % p = (((j * k) % p) * x) % p := by
  rw [Nat.mul_mod, Nat.mod_mod, ← Nat.mul_mod, ← Nat.mul_assoc]
  conv_rhs => rw [Nat.mul_mod, Nat.mod_mod, ← Nat.mul_mod]

/-- Two vectors with first nonzero coordinate 1 that have a common multiple are equal. -/
theorem rep_unique (p k k' a b c a' b' c' : Nat) (hp : p.Prime) (hk : 1 ≤ k) (hkp : k < p)
    (ha : a < p) (hb : b < p) (hc : c < p)
    (ha' : a' < p) (hb' : b' < p) (hc' : c' < p)
    (hr : isRep a b c = true) (hr' : isRep a' b' c' = true)
    (e1 : (k * a) % p = (k' * a') % p) (e2 : (k * b) % p = (k' * b') % p)
    (e3 : (k * c) % p = (k' * c') % p) : a = a' ∧ b = b' ∧ c = c' := by
  obtain ⟨j, _, hj⟩ := exists_inverse p k hp hk hkp
  have hj' : (j * k) % p = 1 := by rw [Nat.mul_comm]; exact hj
  have f1 : a = (((j * k') % p) * a') % p := by
    rw [← mul_mod_mul_mod, ← e1, mul_mod_mul_mod, hj', Nat.one_mul, Nat.mod_eq_of_lt ha]
  have f2 : b = (((j * k') % p) * b') % p := by
    rw [← mul_mod_mul_mod, ← e2, mul_mod_mul_mod, hj', Nat.one_mul, Nat.mod_eq_of_lt hb]
  have f3 : c = (((j * k') % p) * c') % p := by
    rw [← mul_mod_mul_mod, ← e3, mul_mod_mul_mod, hj', Nat.one_mul, Nat.mod_eq_of_lt hc]
  have hm : (j * k') % p < p := Nat.mod_lt _ hp.pos
  generalize (j * k') % p = m at f1 f2 f3 hm
  have hm0 : m ≠ 0 := by
    intro h
    subst h
    simp only [Nat.zero_mul, Nat.zero_mod] at f1 f2 f3
    subst f1 f2 f3
    simp [isRep] at hr
  have hm1 : m = 1 := by
    apply isRep_scale p m a' b' c' hr' (by omega) hm
    rw [← f1, ← f2, ← f3]; exact hr
  subst hm1
  simp only [Nat.one_mul, Nat.mod_eq_of_lt ha', Nat.mod_eq_of_lt hb', Nat.mod_eq_of_lt hc'] 
    at f1 f2 f3
  exact ⟨f1, f2, f3⟩

/-! ## Ids on a line -/


theorem onLine_eq (o a b c : Nat) :
    onLine o a b c = fun v => decide (v.dotProduct (Vector.mk3 a b c) % o = 0) := by
  funext v
  unfold onLine
  cases h : decide (v.dotProduct (Vector.mk3 a b c) % o = 0) <;> simp_all

/-- The ids on a line are the positions of the incident points, in ascending order. -/
theorem idsAt_eq (p k : Nat) :
    idsAt p k = (List.range (p * p + p + 1)).filter
      (fun i => onLine p (k / (p * p)) (k / p % p) (k % p) (pointAt p i)) := by
  unfold idsAt lineAt points
  rw [List.filter_map, List.map_map]
  have : Vector.getId ∘ pointAt p = id := by
    funext i
    simp [Vector.getId, pointAt_id]
  rw [this, List.map_id]
  rfl

theorem mem_idsAt (p k i : Nat) :
    i ∈ idsAt p k ↔ i < p * p + p + 1 ∧
      onLine p (k / (p * p)) (k / p % p) (k % p) (pointAt p i) = true := by
  rw [idsAt_eq, List.mem_filter, List.mem_range]

theorem idsAt_sorted (p k : Nat) : (idsAt p k).Pairwise (· < ·) := by
  rw [idsAt_eq]
  exact List.Pairwise.filter _ (List.pairwise_lt_range _)

theorem finalLines_get (p i : Nat) (hi : i < p * p * p) (h : repIdx p i = true) :
    (finalLines p)[i]? = some (some ((lineAt p i).map some)) := by
  simp [finalLines, List.getElem?_range hi, h]

/-- Every point lies on exactly `p + 1` of the written lines. -/
theorem lines_through_point (p k : Nat) (hp : 2 ≤ p) (hk : k < p * p + p + 1) :
    (((repList p).map (idsAt p)).filter (fun l => decide (k ∈ l))).length = p + 1 := by
  rw [List.filter_map, List.length_map]
  have e : ((fun l => decide (k ∈ l)) ∘ idsAt p) =
      fun r => onLine p (r / (p * p)) (r / p % p) (r % p) (pointAt p k) := by
    funext r
    simp only [Function.comp, mem_idsAt, hk, true_and]
    cases onLine p (r / (p * p)) (r / p % p) (r % p) (pointAt p k) <;> simp
  rw [e, length_filter_reps p hp (fun a b c => onLine p a b c (pointAt p k))]
  obtain ⟨hr, -⟩ := pointAt_shape p k hp hk
  rw [← patch_count_swap p _ _ _ hp hr]
  simp only [onLine_iff]
  have e1 : ∀ u1 u2 u3 : Nat, u1 * 0 + u2 * 0 + u3 * 1 = u3 := by intros; ring
  have e2 : ∀ u1 u2 u3 c : Nat, u1 * 0 + u2 * 1 + u3 * c = c * u3 + u2 := by intros; ring
  have e3 : ∀ u1 u2 u3 b c : Nat, u1 * 1 + u2 * b + u3 * c = c * u3 + b * u2 + u1 := by
    intros; ring
  simp only [e1, e2, e3]

/-! ## Parallel vectors over a field -/

theorem Par.rev {K : Type} [Field K] {u1 u2 u3 v1 v2 v3 : K} (h : Par u1 u2 u3 v1 v2 v3) :
    Par u3 u2 u1 v3 v2 v1 :=
  ⟨h.2.2.symm, h.2.1.symm, h.1.symm⟩

/-- A vector orthogonal to `u` and to `v` is parallel to their cross product. -/
theorem par_cross_of_orth {K : Type} [Field K] (z1 z2 z3 u1 u2 u3 v1 v2 v3 : K)
    (hu : z1 * u1 + z2 * u2 + z3 * u3 = 0) (hv : z1 * v1 + z2 * v2 + z3 * v3 = 0) :
    Par z1 z2 z3 (u2 * v3 - u3 * v2) (u3 * v1 - u1 * v3) (u1 * v2 - u2 * v1) := by
  refine ⟨?_, ?_, ?_⟩
  · linear_combination u3 * hv - v3 * hu
  · linear_combination v2 * hu - u2 * hv
  · linear_combination u1 * hv - v1 * hu

/-- A vector parallel to a nonzero vector is a scalar multiple of it. -/
theorem Par.scalar {K : Type} [Field K] {w1 w2 w3 c1 c2 c3 : K} (h : Par w1 w2 w3 c1 c2 c3)
    (hc : ¬ (c1 = 0 ∧ c2 = 0 ∧ c3 = 0)) :
    ∃ t, w1 = t * c1 ∧ w2 = t * c2 ∧ w3 = t * c3 := by
  obtain ⟨h12, h13, h23⟩ := h
  by_cases n1 : c1 = 0
  · by_cases n2 : c2 = 0
    · have n3 : c3 ≠ 0 := fun n3 => hc ⟨n1, n2, n3⟩
      refine ⟨w3 / c3, ?_, ?_, ?_⟩
      · field_simp; linear_combination h13
      · field_simp; linear_combination h23
      · field_simp
    · refine ⟨w2 / c2, ?_, ?_, ?_⟩
      · field_simp; linear_combination h12
      · field_simp
      · field_simp; linear_combination -h23
  · refine ⟨w1 / c1, ?_, ?_, ?_⟩
    · field_simp
    · field_simp; linear_combination -h12
    · field_simp; linear_combination -h13

theorem Par.trans_of_ne {K : Type} [Field K] {w1 w2 w3 w1' w2' w3' c1 c2 c3 : K}
    (h : Par w1 w2 w3 c1 c2 c3)
    (h' : Par w1' w2' w3' c1 c2 c3) (hc : ¬ (c1 = 0 ∧ c2 = 0 ∧ c3 = 0)) :
    Par w1 w2 w3 w1' w2' w3' := by
  obtain ⟨t, e1, e2, e3⟩ := h.scalar hc
  obtain ⟨t', e1', e2', e3'⟩ := h'.scalar hc
  subst e1 e2 e3 e1' e2' e3'
  refine ⟨by ring, by ring, by ring⟩

theorem Par.orth {K : Type} [Field K] {r1 r2 r3 c1 c2 c3 : K} (h : Par r1 r2 r3 c1 c2 c3)
    (hc : ¬ (c1 = 0 ∧ c2 = 0 ∧ c3 = 0)) (u1 u2 u3 : K)
    (hu : c1 * u1 + c2 * u2 + c3 * u3 = 0) : r1 * u1 + r2 * u2 + r3 * u3 = 0 := by
  obtain ⟨t, e1, e2, e3⟩ := h.scalar hc
  subst e1 e2 e3
  linear_combination t * hu

/-! ## Arithmetic in the field of residues -/

theorem cast_inj_of_lt (p a b : Nat) (ha : a < p) (hb : b < p)
    (h : (a : ZMod p) = (b : ZMod p)) : a = b := by
  rw [ZMod.natCast_eq_natCast_iff', Nat.mod_eq_of_lt ha, Nat.mod_eq_of_lt hb] at h
  exact h

/-- The incidence test of the scan, read in the field `Z/p`. -/
theorem onLine_zmod (p a b c : Nat) (v : Vector) :
    onLine p a b c v = true ↔
      (v.x1 : ZMod p) * a + (v.x2 : ZMod p) * b + (v.x3 : ZMod p) * c = 0 := by
  rw [onLine_iff, ← Nat.dvd_iff_mod_eq_zero, ← ZMod.natCast_zmod_eq_zero_iff_dvd]
  push_cast
  rfl

/-- Parallel vectors with first nonzero coordinate 1 are equal. -/
theorem rep_eq_of_par (p a b c a' b' c' : Nat) [Fact p.Prime]
    (hb : b < p) (hc : c < p) (hb' : b' < p) (hc' : c' < p)
    (hr : isRep a b c = true) (hr' : isRep a' b' c' = true)
    (h : Par (a : ZMod p) (b : ZMod p) (c : ZMod p) (a' : ZMod p) (b' : ZMod p) (c' : ZMod p)) :
    a = a' ∧ b = b' ∧ c = c' := by
  have h10 : (1 : ZMod p) ≠ 0 := one_ne_zero
  obtain ⟨h12, h13, h23⟩ := h
  rw [isRep_iff] at hr hr'
  rcases hr with ⟨e1, e2, e3⟩ | ⟨e1, e2⟩ | e1 <;>
    rcases hr' with ⟨e1', e2', e3'⟩ | ⟨e1', e2'⟩ | e1'
  · subst e1 e2 e3 e1' e2' e3'; exact ⟨rfl, rfl, rfl⟩
  · subst e1 e2 e3 e1' e2'
    simp at h23
  · subst e1 e2 e3 e1'
    simp at h13
  · subst e1 e2 e1' e2' e3'
    simp at h23
  · subst e1 e2 e1' e2'
    simp at h23
    exact ⟨rfl, rfl, (cast_inj_of_lt p _ _ hc' hc h23).symm⟩
  · subst e1 e2 e1'
    simp at h12
  · subst e1 e1' e2' e3'
    simp at h13
  · subst e1 e1' e2'
    simp at h12
  · subst e1 e1'
    simp at h12 h13
    exact ⟨rfl, (cast_inj_of_lt p _ _ hb' hb h12).symm, (cast_inj_of_lt p _ _ hc' hc h13).symm⟩

/-- Every nonzero vector of `(Z/p)^3` is parallel to one with first nonzero coordinate 1. -/
theorem exists_rep_par (p : Nat) [Fact p.Prime] (X Y Z : ZMod p)
    (h0 : ¬ (X = 0 ∧ Y = 0 ∧ Z = 0)) :
    ∃ a b c : Nat, a < p ∧ b < p ∧ c < p ∧ isRep a b c = true ∧
      Par (a : ZMod p) (b : ZMod p) (c : ZMod p) X Y Z := by
  have hp : p.Prime := Fact.out
  have h1p : 1 < p := hp.one_lt
  by_cases hX : X = 0
  · by_cases hY : Y = 0
    · refine ⟨0, 0, 1, hp.pos, hp.pos, h1p, by simp [isRep], ?_⟩
      subst hX hY
      refine ⟨by simp, by simp, by simp⟩
    · refine ⟨0, 1, (Z / Y).val, hp.pos, h1p, ZMod.val_lt _, by simp [isRep], ?_⟩
      subst hX
      rw [ZMod.natCast_zmod_val]
      refine ⟨by simp, by simp, ?_⟩
      push_cast
      field_simp
  · refine ⟨1, (Y / X).val, (Z / X).val, h1p, ZMod.val_lt _, ZMod.val_lt _, by simp [isRep], ?_⟩
    rw [ZMod.natCast_zmod_val, ZMod.natCast_zmod_val]
    push_cast
    refine ⟨?_, ?_, ?_⟩
    · field_simp
    · field_simp
    · field_simp; ring

/-! ## Common orthogonal vector -/

/-- Two different vectors with first nonzero coordinate 1 have, for the pairing
`s3 * r1 + s2 * r2 + s1 * r3`, exactly one common orthogonal vector of that shape. -/
theorem unique_orth_rep (p : Nat) [Fact p.Prime] (r1 r2 r3 r1' r2' r3' : Nat)
    (h2 : r2 < p) (h3 : r3 < p) (h2' : r2' < p) (h3' : r3' < p)
    (hr : isRep r1 r2 r3 = true) (hr' : isRep r1' r2' r3' = true)
    (hne : ¬ (r1 = r1' ∧ r2 = r2' ∧ r3 = r3')) :
    ∃ s1 s2 s3 : Nat, s1 < p ∧ s2 < p ∧ s3 < p ∧ isRep s1 s2 s3 = true ∧
      (s3 : ZMod p) * r1 + (s2 : ZMod p) * r2 + (s1 : ZMod p) * r3 = 0 ∧
      (s3 : ZMod p) * r1' + (s2 : ZMod p) * r2' + (s1 : ZMod p) * r3' = 0 ∧
      ∀ t1 t2 t3 : Nat, t2 < p → t3 < p → isRep t1 t2 t3 = true →
        (t3 : ZMod p) * r1 + (t2 : ZMod p) * r2 + (t1 : ZMod p) * r3 = 0 →
        (t3 : ZMod p) * r1' + (t2 : ZMod p) * r2' + (t1 : ZMod p) * r3' = 0 →
        t1 = s1 ∧ t2 = s2 ∧ t3 = s3 := by
  have hC : ¬ ((r2 : ZMod p) * r3' - r3 * r2' = 0 ∧ (r3 : ZMod p) * r1' - r1 * r3' = 0 ∧
      (r1 : ZMod p) * r2' - r2 * r1' = 0) := by
    rintro ⟨c1, c2, c3⟩
    apply hne
    apply rep_eq_of_par p r1 r2 r3 r1' r2' r3' h2 h3 h2' h3' hr hr'
    refine ⟨?_, ?_, ?_⟩
    · linear_combination c3
    · linear_combination -c2
    · linear_combination c1
  obtain ⟨s1, s2, s3, g1, g2, g3, hs, hpar⟩ := exists_rep_par p
    ((r1 : ZMod p) * r2' - r2 * r1') ((r3 : ZMod p) * r1' - r1 * r3')
    ((r2 : ZMod p) * r3' - r3 * r2') (fun h => hC ⟨h.2.2, h.2.1, h.1⟩)
  have hpar' := hpar.rev
  refine ⟨s1, s2, s3, g1, g2, g3, hs, ?_, ?_, ?_⟩
  · exact hpar'.orth hC _ _ _ (by ring)
  · exact hpar'.orth hC _ _ _ (by ring)
  · intro t1 t2 t3 k2 k3 ht e e'
    have hz := par_cross_of_orth (t3 : ZMod p) t2 t1 r1 r2 r3 r1' r2' r3' e e'
    have := (hz.trans_of_ne hpar' hC).rev
    exact rep_eq_of_par p t1 t2 t3 s1 s2 s3 k2 k3 g2 g3 ht hs this

/-! ## Two lines meet, two points join -/

theorem length_filter_eq_one {α : Type} (l : List α) (P : α → Bool) (x : α)
    (hl : l.Nodup) (hx : x ∈ l) (hP : P x = true) (hu : ∀ y ∈ l, P y = true → y = x) :
    (l.filter P).length = 1 := by
  have hn : (l.filter P).Nodup := hl.filter _
  have hmem : x ∈ l.filter P := List.mem_filter.2 ⟨hx, hP⟩
  have hall : ∀ y ∈ l.filter P, y = x := fun y hy =>
    hu y (List.mem_filter.1 hy).1 (List.mem_filter.1 hy).2
  generalize l.filter P = m at hn hmem hall
  match m, hn, hmem, hall with
  | [], _, hmem, _ => simp at hmem
  | [_], _, _, _ => rfl
  | y :: z :: rest, hn, _, hall =>
    have hy : y = x := hall y (by simp)
    have hz : z = x := hall z (by simp)
    rw [hy, hz] at hn
    simp at hn

theorem mem_repList (p r : Nat) :
    r ∈ repList p ↔ r < p * p * p ∧ repIdx p r = true := by
  rw [repList, List.mem_filter, List.mem_range]

theorem nodup_repList (p : Nat) : (repList p).Nodup :=
  (List.nodup_range _).filter _

theorem nodup_idsAt (p k : Nat) : (idsAt p k).Nodup := by
  rw [idsAt_eq]
  exact (List.nodup_range _).filter _

/-- Two different written lines have exactly one point in common. -/
theorem two_lines_meet (p r r' : Nat) (hp : p.Prime) (hr : r ∈ repList p)
    (hr' : r' ∈ repList p) (hne : r ≠ r') :
    ((idsAt p r).filter (fun i => decide (i ∈ idsAt p r'))).length = 1 := by
  haveI : Fact p.Prime := ⟨hp⟩
  rw [mem_repList] at hr hr'
  obtain ⟨a1, a2, a3, ai⟩ := decode_idx p r hr.1
  obtain ⟨b1, b2, b3, bi⟩ := decode_idx p r' hr'.1
  obtain ⟨s1, s2, s3, g1, g2, g3, hs, e, e', huniq⟩ := unique_orth_rep p
    (r / (p * p)) (r / p % p) (r % p) (r' / (p * p)) (r' / p % p) (r' % p) a2 a3 b2 b3
    hr.2 hr'.2 (fun h => hne (by rw [← ai, ← bi, h.1, h.2.1, h.2.2]))
  obtain ⟨hpos, hpt⟩ := pointAt_posOf p s3 s2 s1 g3 g2 hs
  apply length_filter_eq_one _ _ (posOf p s3 s2 s1) (nodup_idsAt p r)
  · rw [mem_idsAt, hpt, onLine_zmod]
    exact ⟨hpos, e⟩
  · rw [decide_eq_true_eq, mem_idsAt, hpt, onLine_zmod]
    exact ⟨hpos, e'⟩
  · intro j hj hj'
    rw [decide_eq_true_eq] at hj'
    rw [mem_idsAt, onLine_zmod] at hj hj'
    obtain ⟨hjN, hj1⟩ := hj
    obtain ⟨_, hj2⟩ := hj'
    obtain ⟨ur, _, u2, u3, upos⟩ := pointAt_shape p j hp.two_le hjN
    obtain ⟨f1, f2, f3⟩ := huniq _ _ _ u2 (pointAt_shape p j hp.two_le hjN).2.1 ur hj1 hj2
    rw [← upos, f1, f2, f3]

/-- Two different points lie together on exactly one written line. -/
theorem two_points_join (p i j : Nat) (hp : p.Prime) (hi : i < p * p + p + 1)
    (hj : j < p * p + p + 1) (hne : i ≠ j) :
    (((repList p).map (idsAt p)).filter (fun l => decide (i ∈ l ∧ j ∈ l))).length = 1 := by
  haveI : Fact p.Prime := ⟨hp⟩
  rw [List.filter_map, List.length_map]
  obtain ⟨ur, u1, u2, u3, upos⟩ := pointAt_shape p i hp.two_le hi
  obtain ⟨vr, v1, v2, v3, vpos⟩ := pointAt_shape p j hp.two_le hj
  obtain ⟨s1, s2, s3, g1, g2, g3, hs, e, e', huniq⟩ := unique_orth_rep p
    (pointAt p i).x3 (pointAt p i).x2 (pointAt p i).x1
    (pointAt p j).x3 (pointAt p j).x2 (pointAt p j).x1 u2 u1 v2 v1 ur vr
    (fun h => hne (by rw [← upos, ← vpos, h.1, h.2.1, h.2.2]))
  obtain ⟨d1, d2, d3⟩ := idx_decode p s1 s2 s3 g2 g3
  apply length_filter_eq_one _ _ (idx p s1 s2 s3) (nodup_repList p)
  · rw [mem_repList, repIdx_idx p _ _ _ g2 g3]
    exact ⟨idx_lt p _ _ _ g1 g2 g3, hs⟩
  · simp only [Function.comp, decide_eq_true_eq, mem_idsAt, d1, d2, d3, onLine_zmod]
    refine ⟨⟨hi, ?_⟩, hj, ?_⟩
    · linear_combination e
    · linear_combination e'
  · intro r hr hr'
    rw [mem_repList] at hr
    simp only [Function.comp, decide_eq_true_eq, mem_idsAt, onLine_zmod] at hr'
    obtain ⟨⟨_, k1⟩, _, k2⟩ := hr'
    obtain ⟨a1, a2, a3, ai⟩ := decode_idx p r hr.1
    obtain ⟨f1, f2, f3⟩ := huniq _ _ _ a2 a3 hr.2 (by linear_combination k1)
      (by linear_combination k2)
    rw [← ai, f1, f2, f3]

/-! ## The trace of the rounds -/

/-- The invariant at the end of the triple loop determines the final state. -/
theorem LInv_final (p : Nat) (hp : p.Prime) (st : LState) (h : LInv p (p * p * p) st) :
    st = ⟨finalUnique p, finalLines p⟩ := by
  obtain ⟨_, _, h3, h4⟩ := id h
  cases st with
  | mk unique lines =>
    obtain ⟨k1, k2, -, -⟩ := h
    simp only at h3 h4 k1 k2
    congr 1
    · apply List.ext_getElem?
      intro k
      by_cases hk : k < p * p * p
      · have hget : unique[k]? = some (unique[k]) := List.getElem?_eq_getElem (by omega)
        have := h3 k hk
        rw [fresh_final p k hp hk] at this
        rw [hget] at this ⊢
        simp only [finalUnique, List.getElem?_map, List.getElem?_range hk, Option.map_some']
        congr 1
        cases hb : unique[k] <;> cases hr : repIdx p k <;> simp [hb, hr] at this ⊢
      · rw [List.getElem?_eq_none (by omega), List.getElem?_eq_none (by simp [finalUnique]; omega)]
    · apply List.ext_getElem?
      intro k
      by_cases hk : k < p * p * p
      · rw [h4 k hk]
        simp [finalLines, List.getElem?_range hk, hk]
      · rw [List.getElem?_eq_none (by omega), List.getElem?_eq_none (by simp [finalLines]; omega)]

/-- The flag read at the top of a round is set exactly for first nonzero coordinate 1. -/
theorem flag_at_round (p a b c : Nat) (hp : p.Prime) (ha : a < p) (hb : b < p) (hc : c < p)
    (s : LState) (h : LInv p (idx p a b c) s) :
    s.unique[idx p a b c]? = some (isRep a b c) := by
  obtain ⟨hlu, _, hu, _⟩ := h
  have hn : idx p a b c < p * p * p := idx_lt p a b c ha hb hc
  have hget : s.unique[idx p a b c]? = some (s.unique[idx p a b c]) :=
    List.getElem?_eq_getElem (by omega)
  have hiff := hu _ hn
  rw [hget] at hiff ⊢
  congr 1
  cases hfr : s.unique[idx p a b c] with
  | true =>
    rw [hfr] at hiff
    exact (fresh_isRep p _ a b c hp ha hb hc (le_refl _) (hiff.1 rfl)).symm
  | false =>
    rw [hfr] at hiff
    cases hr : isRep a b c with
    | false => rfl
    | true =>
      have := hiff.2 (isRep_fresh p _ a b c hp.pos hb hc hr)
      simp at this

theorem lineStepLog_inv (p a b c : Nat) (hp : p.Prime) (ha : a < p) (hb : b < p) (hc : c < p)
    (t : LState × List Round) (h : LInv p (idx p a b c) t.1)
    (ht : t.2 = (List.range (idx p a b c)).map (roundAt p)) :
    ∃ t', lineStepLog ((points p).map some) p a b c t = some t' ∧
      LInv p (idx p a b c + 1) t'.1 ∧
      t'.2 = (List.range (idx p a b c + 1)).map (roundAt p) := by
  obtain ⟨s', e, h'⟩ := lineStep_inv p a b c hp ha hb hc t.1 h
  have hfl := flag_at_round p a b c hp ha hb hc t.1 h
  have hn : idx p a b c < p * p * p := idx_lt p a b c ha hb hc
  have hrep := repIdx_idx p a b c hb hc
  have hline := h'.2.2.2 _ hn
  have hidx : a * p * p + b * p + c = idx p a b c := rfl
  refine ⟨(s', t.2 ++ [roundAt p (idx p a b c)]), ?_, h', ?_⟩
  · simp only [lineStepLog, hidx, hfl, e, hline, Option.bind_eq_bind, Option.some_bind,
      Option.pure_def, roundAt, hrep]
    cases hr : isRep a b c <;> simp
  · show t.2 ++ [roundAt p (idx p a b c)] = _
    rw [ht, List.range_succ, List.map_append, List.map_singleton]

theorem constructLinesLog_eq (p : Nat) (hp : p.Prime) (u : List Bool)
    (hl : u.length = p * p * p) (hu : ∀ k, k < p * p * p → u[k]? = some (decide (k ≠ 0))) :
    constructLinesLog ((points p).map some) u p =
      some (⟨finalUnique p, finalLines p⟩, (List.range (p * p * p)).map (roundAt p)) := by
  have h0 : LInv p (idx p 0 0 0) ⟨u, List.replicate (p * p * p) none⟩ := by
    refine ⟨hl, by simp, ?_, ?_⟩
    · intro k hk
      rw [hu k hk]
      simp only [Option.some.injEq, decide_eq_true_eq]
      exact ⟨fun h => ⟨h, fun a b c _ _ _ hlt => by simp [idx] at hlt⟩, fun h => h.1⟩
    · intro k hk
      simp [idx, hk]
  obtain ⟨t, e, h, ht⟩ := forLoop_inv
    (fun a t => forLoop 0 p (fun b t =>
      forLoop 0 p (fun c t => lineStepLog ((points p).map some) p a b c t) t) t)
    (fun a t => LInv p (idx p a 0 0) t.1 ∧ t.2 = (List.range (idx p a 0 0)).map (roundAt p))
    0 p (⟨u, List.replicate (p * p * p) none⟩, []) (Nat.zero_le _) ⟨h0, by simp [idx]⟩
    (fun a t _ ha hI => by
      obtain ⟨t', e', h'⟩ := forLoop_inv
        (fun b t => forLoop 0 p (fun c t => lineStepLog ((points p).map some) p a b c t) t)
        (fun b t => LInv p (idx p a b 0) t.1 ∧
          t.2 = (List.range (idx p a b 0)).map (roundAt p)) 0 p t (Nat.zero_le _) hI
        (fun b t _ hb hI => by
          obtain ⟨t', e', h'⟩ := forLoop_inv
            (fun c t => lineStepLog ((points p).map some) p a b c t)
            (fun c t => LInv p (idx p a b c) t.1 ∧
              t.2 = (List.range (idx p a b c)).map (roundAt p)) 0 p t (Nat.zero_le _) hI
            (fun c t _ hc hI => by
              obtain ⟨t', e', h1, h2⟩ := lineStepLog_inv p a b c hp ha hb hc t hI.1 hI.2
              exact ⟨t', e', h1, h2⟩)
          refine ⟨t', e', ?_⟩
          have : idx p a (b + 1) 0 = idx p a b p := by simp only [idx]; ring
          show LInv p (idx p a (b + 1) 0) t'.1 ∧ _
          rw [this]; exact h')
      refine ⟨t', e', ?_⟩
      have : idx p (a + 1) 0 0 = idx p a p 0 := by simp only [idx]; ring
      show LInv p (idx p (a + 1) 0 0) t'.1 ∧ _
      rw [this]; exact h')
  have hfin : idx p p 0 0 = p * p * p := by simp [idx]
  rw [hfin] at h ht
  have e1 := LInv_final p hp t.1 h
  unfold constructLinesLog
  rw [e]
  congr 1
  cases t with
  | mk s l =>
    simp only at e1 ht
    rw [e1, ht]

/-! ## Rounds of representatives and of their multiples -/

/-- A multiple by `i ≥ 2` of a vector with first nonzero coordinate 1 comes later in the
order of the triple loop. -/
theorem idx_lt_markIdx (p i a b c : Nat) (hb : b < p) (hc : c < p)
    (h : isRep a b c = true) (hi : 2 ≤ i) (hip : i < p) :
    idx p a b c < markIdx p i a b c := by
  have hpos : 0 < p := by omega
  have hm : i % p = i := Nat.mod_eq_of_lt hip
  have hpp : 2 * p ≤ p * p := Nat.mul_le_mul_right p (by omega : 2 ≤ p)
  rw [isRep_iff] at h
  rcases h with ⟨e1, e2, e3⟩ | ⟨e1, e2⟩ | e1
  · subst e1 e2 e3
    simp only [markIdx, idx, Nat.mul_zero, Nat.zero_mod, Nat.mul_one, hm, Nat.zero_mul]
    omega
  · subst e1 e2
    simp only [markIdx, idx, Nat.mul_zero, Nat.zero_mod, Nat.mul_one, hm, Nat.zero_mul,
      Nat.one_mul]
    have : 2 * p ≤ i * p := Nat.mul_le_mul_right p hi
    omega
  · subst e1
    simp only [markIdx, idx, Nat.mul_one, hm, Nat.one_mul]
    have h3 : b * p + p ≤ p * p := by
      have := Nat.mul_le_mul_right p (show b + 1 ≤ p from hb)
      rw [Nat.succ_mul] at this; exact this
    have h4 : 2 * (p * p) ≤ i * p * p := by
      have := Nat.mul_le_mul_right (p * p) hi
      rw [← Nat.mul_assoc i] at this; exact this
    omega

theorem rounds_get (p m : Nat) (hm : m < p * p * p) :
    ((List.range (p * p * p)).map (roundAt p))[m]? = some (roundAt p m) := by
  simp [List.getElem?_range hm]

theorem roundAt_of_rep (p k : Nat) (h : repIdx p k = true) :
    roundAt p k = ⟨k, true, some ((lineAt p k).map some)⟩ := by
  simp [roundAt, h]

theorem roundAt_of_not_rep (p k : Nat) (h : repIdx p k = false) :
    roundAt p k = ⟨k, false, none⟩ := by
  simp [roundAt, h]

/-! ## Vectors with the same incident points -/

/-- A vector and its multiple by a scalar in `1..p-1` are incident with the same points. -/
theorem onLine_scalar (p k a b c x y z : Nat) (hp : p.Prime)
    (h : ScalarMultiple p k a b c x y z) (v : Vector) :
    onLine p x y z v = true ↔ onLine p a b c v = true := by
  haveI : Fact p.Prime := ⟨hp⟩
  obtain ⟨hk, hkp, e1, e2, e3⟩ := h
  have hk0 : (k : ZMod p) ≠ 0 := by
    rw [Ne, ZMod.natCast_zmod_eq_zero_iff_dvd]
    exact Nat.not_dvd_of_pos_of_lt hk hkp
  rw [onLine_zmod, onLine_zmod, e1, e2, e3, ZMod.natCast_mod, ZMod.natCast_mod,
    ZMod.natCast_mod]
  push_cast
  constructor
  · intro h
    have h' : (k : ZMod p) * ((v.x1 : ZMod p) * a + v.x2 * b + v.x3 * c) = 0 := by
      linear_combination h
    rcases mul_eq_zero.1 h' with h0 | h0
    · exact absurd h0 hk0
    · exact h0
  · intro h
    linear_combination (k : ZMod p) * h

/-- Vectors with first nonzero coordinate 1 that are incident with the same points are
equal. -/
theorem rep_eq_of_same_points (p a b c a' b' c' : Nat) (hp : p.Prime)
    (ha : a < p) (hb : b < p) (hc : c < p) (ha' : a' < p) (hb' : b' < p) (hc' : c' < p)
    (hr : isRep a b c = true) (hr' : isRep a' b' c' = true)
    (h : ∀ i, i < p * p + p + 1 →
      (onLine p a b c (pointAt p i) = true ↔ onLine p a' b' c' (pointAt p i) = true)) :
    a = a' ∧ b = b' ∧ c = c' := by
  by_contra hne
  have hidx : idx p a b c ≠ idx p a' b' c' := fun e =>
    hne (idx_inj p _ _ _ _ _ _ hb hc hb' hc' e)
  obtain ⟨d1, d2, d3⟩ := idx_decode p a b c hb hc
  obtain ⟨d1', d2', d3'⟩ := idx_decode p a' b' c' hb' hc'
  have m1 : idx p a b c ∈ repList p := by
    rw [mem_repList, repIdx_idx p _ _ _ hb hc]; exact ⟨idx_lt p _ _ _ ha hb hc, hr⟩
  have m2 : idx p a' b' c' ∈ repList p := by
    rw [mem_repList, repIdx_idx p _ _ _ hb' hc']; exact ⟨idx_lt p _ _ _ ha' hb' hc', hr'⟩
  have hone := two_lines_meet p _ _ hp m1 m2 hidx
  have hall : (idsAt p (idx p a b c)).filter
      (fun i => decide (i ∈ idsAt p (idx p a' b' c'))) = idsAt p (idx p a b c) := by
    rw [List.filter_eq_self]
    intro i hi
    rw [decide_eq_true_eq, mem_idsAt, d1', d2', d3']
    rw [mem_idsAt, d1, d2, d3] at hi
    exact ⟨hi.1, (h i hi.1).1 hi.2⟩
  rw [hall, idsAt, List.length_map, lineAt, d1, d2, d3, length_line p a b c hp.two_le hr] at hone
  have := hp.two_le
  omega

/-! ## The dot product in 32 bits -/

theorem int32_of_lt (n : Nat) (h : n < 2 ^ 31) : int32 (n : Int) = (n : Int) := by
  unfold int32
  have e0 : (2 : Nat) ^ 31 = 2147483648 := by norm_num
  have e1 : (2 : Int) ^ 31 = 2147483648 := by norm_num
  have e2 : (2 : Int) ^ 32 = 4294967296 := by norm_num
  rw [e1, e2]
  omega

/-- When the exact dot product is below `2^31`, the machine computes it exactly. -/
theorem dotProduct32_eq (P : Vector) (a b c : Nat)
    (h : P.x1 * a + P.x2 * b + P.x3 * c < 2 ^ 31) :
    P.dotProduct32 (Vector.mk3 a b c) = ((P.dotProduct (Vector.mk3 a b c) : Nat) : Int) := by
  have h1 : P.x1 * a < 2 ^ 31 := by omega
  have h2 : P.x2 * b < 2 ^ 31 := by omega
  have h3 : P.x3 * c < 2 ^ 31 := by omega
  have h12 : P.x1 * a + P.x2 * b < 2 ^ 31 := by omega
  simp only [Vector.dotProduct32, Vector.dotProduct, Vector.getX, Vector.mk3]
  rw [← Nat.cast_mul, ← Nat.cast_mul, ← Nat.cast_mul, int32_of_lt _ h1, int32_of_lt _ h2,
    int32_of_lt _ h3, ← Nat.cast_add, int32_of_lt _ h12, ← Nat.cast_add, int32_of_lt _ h]

/-- On an exact dot product the machine test `dotProduct % o == 0` is the residue test. -/
theorem tmod_dot_eq_zero_iff (n p : Nat) :
    Int.tmod (n : Int) (p : Int) = 0 ↔ n % p = 0 := by
  rw [← Int.ofNat_tmod]
  exact Int.natCast_eq_zero

/-- For an order up to 32768 no dot product of a point with a candidate vector overflows:
a point has a coordinate pattern `(1,0,0)`, `(a,1,0)` or `(b,a,1)`, so the exact value is at
most `2 * 32767 * 32767 + 32767`. -/
theorem dot_lt_of_point (p k a b c : Nat) (hp : 2 ≤ p) (hb : p ≤ 32768)
    (hk : k < p * p + p + 1) (ha : a < p) (hb' : b < p) (hc : c < p) :
    (pointAt p k).x1 * a + (pointAt p k).x2 * b + (pointAt p k).x3 * c < 2 ^ 31 := by
  have e0 : (2 : Nat) ^ 31 = 2147483648 := by norm_num
  rcases position_cases p k hk with h | ⟨u, hu, h⟩ | ⟨v, u, hv, hu, h⟩
  · subst h
    rw [pointAt_zero]
    simp only
    omega
  · subst h
    rw [pointAt_first p u hu]
    simp only
    have b1 : u * a ≤ 32767 * 32767 := Nat.mul_le_mul (by omega) (by omega)
    omega
  · subst h
    rw [pointAt_second p v u hu]
    simp only
    have b1 : v * a ≤ 32767 * 32767 := Nat.mul_le_mul (by omega) (by omega)
    have b2 : u * b ≤ 32767 * 32767 := Nat.mul_le_mul (by omega) (by omega)
    omega

/-- Existence form of `constructVertices_eq`: the vertex array produced for an order whose
array size fits in `int` is `points o`, every slot written. -/
theorem constructVertices_vertices (o : Nat) (hb : o * o + o + 1 < 2 ^ 31) :
    ∃ vs, constructVertices o = some vs ∧ vs.vertices = (points o).map some :=
  ⟨_, constructVertices_eq o hb, rfl⟩

theorem onLine_dot (o a b c : Nat) (v : Vector) :
    onLine o a b c v = true ↔ v.dotProduct (Vector.mk3 a b c) % o = 0 := by
  simp [onLine]

/-- Two nonzero candidate vectors have the same incident points, for the exact dot product,
exactly when one is a multiple of the other by a scalar in `1..p-1`. -/
theorem same_points_iff_multiple (p : Nat) (hp : p.Prime) (v1 v2 v3 w1 w2 w3 : Nat)
    (hv1 : v1 < p) (hv2 : v2 < p) (hv3 : v3 < p) (hw1 : w1 < p) (hw2 : w2 < p) (hw3 : w3 < p)
    (hv0 : ¬ (v1 = 0 ∧ v2 = 0 ∧ v3 = 0)) (hw0 : ¬ (w1 = 0 ∧ w2 = 0 ∧ w3 = 0)) :
    (∀ P ∈ points p, (onLine p v1 v2 v3 P = true ↔ onLine p w1 w2 w3 P = true)) ↔
      ∃ k, ScalarMultiple p k v1 v2 v3 w1 w2 w3 := by
  constructor
  · intro hsame
    obtain ⟨a, b, c, k, ha, hb, hc, hr, hk, hkp, f1, f2, f3⟩ :=
      exists_rep_scale p v1 v2 v3 hp hv1 hv2 hv3 hv0
    obtain ⟨a', b', c', k', ha', hb', hc', hr', hk', hkp', g1, g2, g3⟩ :=
      exists_rep_scale p w1 w2 w3 hp hw1 hw2 hw3 hw0
    have hsv := onLine_scalar p k a b c v1 v2 v3 hp ⟨hk, hkp, f1, f2, f3⟩
    have hsw := onLine_scalar p k' a' b' c' w1 w2 w3 hp ⟨hk', hkp', g1, g2, g3⟩
    obtain ⟨q1, q2, q3⟩ := rep_eq_of_same_points p a b c a' b' c' hp ha hb hc ha' hb' hc'
      hr hr' (fun i hi => by
        have hmem : pointAt p i ∈ points p :=
          List.mem_map.2 ⟨i, List.mem_range.2 hi, rfl⟩
        rw [← hsv, ← hsw]
        exact hsame _ hmem)
    subst q1 q2 q3
    obtain ⟨j, _, hj⟩ := exists_inverse p k hp hk hkp
    have hj' : (j * k) % p = 1 := by rw [Nat.mul_comm]; exact hj
    have r1 : a = (j * v1) % p := by rw [f1, mul_inverse_cancel p j k a hj' ha]
    have r2 : b = (j * v2) % p := by rw [f2, mul_inverse_cancel p j k b hj' hb]
    have r3 : c = (j * v3) % p := by rw [f3, mul_inverse_cancel p j k c hj' hc]
    have t1 : w1 = (((k' * j) % p) * v1) % p := by rw [← mul_mod_mul_mod, ← r1]; exact g1
    have t2 : w2 = (((k' * j) % p) * v2) % p := by rw [← mul_mod_mul_mod, ← r2]; exact g2
    have t3 : w3 = (((k' * j) % p) * v3) % p := by rw [← mul_mod_mul_mod, ← r3]; exact g3
    have hm : (k' * j) % p < p := Nat.mod_lt _ hp.pos
    refine ⟨(k' * j) % p, ?_, hm, t1, t2, t3⟩
    rcases Nat.eq_zero_or_pos ((k' * j) % p) with h0 | h0
    · rw [h0] at t1 t2 t3
      simp only [Nat.zero_mul, Nat.zero_mod] at t1 t2 t3
      exact absurd ⟨t1, t2, t3⟩ hw0
    · exact h0
  · rintro ⟨k, hk⟩ P _
    exact (onLine_scalar p k v1 v2 v3 w1 w2 w3 hp hk P).symm

/-! ## Claims about the counts and the vertex array -/

/-- C1: for every prime order `p` with `2 ≤ p ≤ 100`, after `constructVertices`, the flag
initialisation of `main` and `constructLines`, the number of indices `i` in `1..p^3-1`
whose flag is still set, which is the number of lines `main` writes, is `p^2 + p + 1`,
the number of points. -/
theorem C1_line_count (p : Nat) (hp : p.Prime) (_h100 : p ≤ 100) :
    ∃ pl, run p = some pl ∧
      ((List.range' 1 (p * p * p - 1)).filter
        (fun i => decide (pl.unique[i]? = some true))).length = p * p + p + 1 ∧
      pl.output.length = p * p + p + 1 ∧
      pl.vertices.length = p * p + p + 1 := by
  refine ⟨_, run_eq p hp (vsize_lt p _h100), ?_, ?_, ?_⟩
  · show ((List.range' 1 (p * p * p - 1)).filter
        (fun i => decide ((finalUnique p)[i]? = some true))).length = _
    rw [filter_flags_eq p hp.pos, length_repList p hp.two_le]
  · show ((repList p).map (idsAt p)).length = _
    rw [List.length_map, length_repList p hp.two_le]
  · show ((points p).map some).length = _
    rw [List.length_map, length_points]

/-- Instance of C1 at the order 2. -/
theorem C1_line_count_witness :
    Nat.Prime 2 ∧ 2 ≤ 100 ∧
    ∃ pl, run 2 = some pl ∧
      ((List.range' 1 (2 * 2 * 2 - 1)).filter
        (fun i => decide (pl.unique[i]? = some true))).length = 2 * 2 + 2 + 1 ∧
      pl.output.length = 2 * 2 + 2 + 1 ∧
      pl.vertices.length = 2 * 2 + 2 + 1 :=
  ⟨Nat.prime_two, by decide, C1_line_count 2 Nat.prime_two (by decide)⟩

/-- C7, refuted as stated: at the order 46341 the size `o * o + o + 1 = 2147534623` is
above the largest `int`, so `constructVertices` does not fill `p^2 + p + 1` slots. -/
theorem C7_counterexample :
    1 ≤ 46341 ∧ constructVertices 46341 = none ∧
    ¬ ∃ vs, constructVertices 46341 = some vs ∧
      vs.vertices.length = 46341 * 46341 + 46341 + 1 := by
  refine ⟨by decide, constructVertices_overflow 46341 (by norm_num), ?_⟩
  rintro ⟨vs, h, _⟩
  rw [constructVertices_overflow 46341 (by norm_num)] at h
  exact Option.noConfusion h

/-- C7, as amended: for every order `p` with `1 ≤ p ≤ 46340`, the orders whose array size
`p^2 + p + 1` fits an `int`, `constructVertices` assigns each of the positions `0..p^2+p`
exactly once and no other position, so it fills exactly `p^2 + p + 1` slots, and the point
stored at position `k` carries the id `k`: the ids, read in position order, are exactly
`0, 1, ..., p^2+p`. -/
theorem C7_vertices_filled_once (p : Nat) (_hp : 1 ≤ p) (hb : p ≤ 46340) :
    ∃ vs, constructVertices p = some vs ∧
      vs.vertices.length = p * p + p + 1 ∧
      (∀ k, vs.written.count k = if k ≤ p * p + p then 1 else 0) ∧
      (∀ k, k ≤ p * p + p → ∃ v, vs.vertices[k]? = some (some v) ∧ v.id = k) ∧
      vs.vertices.map (Option.map Vector.getId) = (List.range (p * p + p + 1)).map some := by
  refine ⟨_, constructVertices_eq p (vsize_lt_of_le p hb), ?_, ?_, ?_, ?_⟩
  · show ((points p).map some).length = _
    rw [List.length_map, length_points]
  · intro k
    show (List.range (p * p + p + 1)).count k = _
    by_cases hk : k ≤ p * p + p
    · rw [if_pos hk]
      exact List.count_eq_one_of_mem (List.nodup_range _) (List.mem_range.2 (by omega))
    · rw [if_neg hk]
      exact List.count_eq_zero_of_not_mem (fun h => hk (by have := List.mem_range.1 h; omega))
  · intro k hk
    exact ⟨pointAt p k, points_get p k (by omega), pointAt_id p k⟩
  · show ((points p).map some).map (Option.map Vector.getId) = _
    simp [points, Vector.getId, pointAt_id, Function.comp]

/-- Instance of C7 at the order 3. -/
theorem C7_vertices_filled_once_witness :
    1 ≤ 3 ∧ 3 ≤ 46340 ∧
    ∃ vs, constructVertices 3 = some vs ∧
      vs.vertices.length = 3 * 3 + 3 + 1 ∧
      (∀ k, vs.written.count k = if k ≤ 3 * 3 + 3 then 1 else 0) ∧
      (∀ k, k ≤ 3 * 3 + 3 → ∃ v, vs.vertices[k]? = some (some v) ∧ v.id = k) ∧
      vs.vertices.map (Option.map Vector.getId) = (List.range (3 * 3 + 3 + 1)).map some :=
  ⟨by decide, by decide, C7_vertices_filled_once 3 (by decide) (by decide)⟩

/-- C8, refuted as stated: at the order 46341 the size `o * o + o + 1` overflows the type
`int` and `constructVertices` lays out no array, so no position holds `(1,0,0)`. -/
theorem C8_counterexample :
    1 ≤ 46341 ∧ constructVertices 46341 = none ∧
    ¬ ∃ vs, constructVertices 46341 = some vs ∧
      vs.vertices[0]? = some (some ⟨1, 0, 0, 0⟩) := by
  refine ⟨by decide, constructVertices_overflow 46341 (by norm_num), ?_⟩
  rintro ⟨vs, h, _⟩
  rw [constructVertices_overflow 46341 (by norm_num)] at h
  exact Option.noConfusion h

/-- C8, as amended: for every order `p` with `1 ≤ p ≤ 46340`, the orders whose array size
fits an `int`, `constructVertices` lays the points out in a fixed order: position 0 holds
`(1,0,0)`, position `1 + a` holds `(a,1,0)` for `a` in `0..p-1`, and position
`1 + p + b*p + a` holds `(b,a,1)` for `b` and `a` in `0..p-1`. -/
theorem C8_vertex_order (p : Nat) (_hp : 1 ≤ p) (hb : p ≤ 46340) :
    ∃ vs, constructVertices p = some vs ∧
      vs.vertices[0]? = some (some ⟨1, 0, 0, 0⟩) ∧
      (∀ a, a < p → vs.vertices[1 + a]? = some (some ⟨a, 1, 0, 1 + a⟩)) ∧
      (∀ b a, b < p → a < p →
        vs.vertices[1 + p + b * p + a]? = some (some ⟨b, a, 1, 1 + p + b * p + a⟩)) := by
  refine ⟨_, constructVertices_eq p (vsize_lt_of_le p hb), ?_, ?_, ?_⟩
  · show ((points p).map some)[0]? = _
    rw [points_get p 0 (by omega), pointAt_zero]
  · intro a ha
    show ((points p).map some)[1 + a]? = _
    have : a < p * p + p := by omega
    rw [points_get p (1 + a) (by omega), pointAt_first p a ha]
  · intro b a hb' ha
    show ((points p).map some)[1 + p + b * p + a]? = _
    have hlt : 1 + p + b * p + a < p * p + p + 1 := by
      have := Nat.mul_le_mul_right p (show b + 1 ≤ p from hb')
      rw [Nat.succ_mul] at this
      omega
    rw [points_get p _ hlt, pointAt_second p b a ha]

/-- Instance of C8 at the order 3. -/
theorem C8_vertex_order_witness :
    1 ≤ 3 ∧ 3 ≤ 46340 ∧
    ∃ vs, constructVertices 3 = some vs ∧
      vs.vertices[0]? = some (some ⟨1, 0, 0, 0⟩) ∧
      (∀ a, a < 3 → vs.vertices[1 + a]? = some (some ⟨a, 1, 0, 1 + a⟩)) ∧
      (∀ b a, b < 3 → a < 3 →
        vs.vertices[1 + 3 + b * 3 + a]? = some (some ⟨b, a, 1, 1 + 3 + b * 3 + a⟩)) :=
  ⟨by decide, by decide, C8_vertex_order 3 (by decide) (by decide)⟩

/-! ## Claims about classes of vectors and the directions of the points -/

/-- C3: for every prime order `p` with `2 ≤ p ≤ 100`, every projective class of nonzero
vectors over `Z/p` is emitted exactly once: each nonzero `(a, b, c)` with coordinates in
`0..p-1` is a multiple, by a scalar in `1..p-1` modulo `p`, of exactly one emitted
representative, and no emitted representative is such a multiple of a different one. -/
theorem C3_each_class_once (p : Nat) (hp : p.Prime) (_h100 : p ≤ 100) :
    ∃ pl, run p = some pl ∧
      (∀ a b c, a < p → b < p → c < p → ¬ (a = 0 ∧ b = 0 ∧ c = 0) →
        ∃ r1 r2 r3, (Emitted p pl r1 r2 r3 ∧ ∃ k, ScalarMultiple p k r1 r2 r3 a b c) ∧
          ∀ s1 s2 s3, Emitted p pl s1 s2 s3 → (∃ k, ScalarMultiple p k s1 s2 s3 a b c) →
            s1 = r1 ∧ s2 = r2 ∧ s3 = r3) ∧
      (∀ r1 r2 r3 s1 s2 s3, Emitted p pl r1 r2 r3 → Emitted p pl s1 s2 s3 →
        ∀ k, ScalarMultiple p k r1 r2 r3 s1 s2 s3 → r1 = s1 ∧ r2 = s2 ∧ r3 = s3) := by
  refine ⟨_, run_eq p hp (vsize_lt p _h100), ?_, ?_⟩
  · intro a b c ha hb hc h0
    obtain ⟨r1, r2, r3, k, h1, h2, h3, hr, hk, hkp, e1, e2, e3⟩ :=
      exists_rep_scale p a b c hp ha hb hc h0
    refine ⟨r1, r2, r3, ⟨(emitted_iff p r1 r2 r3 hp.two_le _ rfl).2 ⟨h1, h2, h3, hr⟩,
      k, hk, hkp, e1, e2, e3⟩, ?_⟩
    rintro s1 s2 s3 hs ⟨k', hk', hkp', e1', e2', e3'⟩
    obtain ⟨g1, g2, g3, hs'⟩ := (emitted_iff p s1 s2 s3 hp.two_le _ rfl).1 hs
    exact rep_unique p k' k s1 s2 s3 r1 r2 r3 hp hk' hkp' g1 g2 g3 h1 h2 h3 hs' hr
      (by rw [← e1', ← e1]) (by rw [← e2', ← e2]) (by rw [← e3', ← e3])
  · rintro r1 r2 r3 s1 s2 s3 hr hs k ⟨hk, hkp, e1, e2, e3⟩
    obtain ⟨h1, h2, h3, hr'⟩ := (emitted_iff p r1 r2 r3 hp.two_le _ rfl).1 hr
    obtain ⟨g1, g2, g3, hs'⟩ := (emitted_iff p s1 s2 s3 hp.two_le _ rfl).1 hs
    have hk1 : k = 1 := by
      apply isRep_scale p k r1 r2 r3 hr' hk hkp
      rw [← e1, ← e2, ← e3]; exact hs'
    subst hk1
    simp only [Nat.one_mul, Nat.mod_eq_of_lt h1, Nat.mod_eq_of_lt h2, Nat.mod_eq_of_lt h3]
      at e1 e2 e3
    exact ⟨e1.symm, e2.symm, e3.symm⟩

/-- Instance of C3 at the order 3. -/
theorem C3_each_class_once_witness :
    Nat.Prime 3 ∧ 3 ≤ 100 ∧
    ∃ pl, run 3 = some pl ∧
      (∀ a b c, a < 3 → b < 3 → c < 3 → ¬ (a = 0 ∧ b = 0 ∧ c = 0) →
        ∃ r1 r2 r3, (Emitted 3 pl r1 r2 r3 ∧ ∃ k, ScalarMultiple 3 k r1 r2 r3 a b c) ∧
          ∀ s1 s2 s3, Emitted 3 pl s1 s2 s3 → (∃ k, ScalarMultiple 3 k s1 s2 s3 a b c) →
            s1 = r1 ∧ s2 = r2 ∧ s3 = r3) ∧
      (∀ r1 r2 r3 s1 s2 s3, Emitted 3 pl r1 r2 r3 → Emitted 3 pl s1 s2 s3 →
        ∀ k, ScalarMultiple 3 k r1 r2 r3 s1 s2 s3 → r1 = s1 ∧ r2 = s2 ∧ r3 = s3) :=
  ⟨Nat.prime_three, by decide, C3_each_class_once 3 Nat.prime_three (by decide)⟩

/-- C9: for every prime order `p`, no two distinct points produced by `constructVertices`
are scalar multiples of one another modulo `p`: points `u` and `v` of the array it returns
with different ids and a scalar `k` in `1..p-1` satisfy that `k * u` reduced modulo `p`
differs from `v`.  The array is returned, with `p^2 + p + 1` entries, for every
`p ≤ 46340`; above that the size overflows `int` and no point is produced at all. -/
theorem C9_points_not_proportional (p : Nat) (hp : p.Prime) :
    (p ≤ 46340 → ∃ vs, constructVertices p = some vs ∧
      vs.vertices.length = p * p + p + 1) ∧
    (46340 < p → constructVertices p = none) ∧
    ∀ vs, constructVertices p = some vs →
      ∀ (i j : Nat) (u v : Vector), vs.vertices[i]? = some (some u) →
        vs.vertices[j]? = some (some v) →
        u.id ≠ v.id → ∀ k, 1 ≤ k → k < p →
          ((k * u.x1) % p, (k * u.x2) % p, (k * u.x3) % p) ≠ (v.x1, v.x2, v.x3) := by
  constructor
  · intro hb
    refine ⟨_, constructVertices_eq p (vsize_lt_of_le p hb), ?_⟩
    show ((points p).map some).length = _
    rw [List.length_map, length_points]
  constructor
  · intro hb
    apply constructVertices_overflow
    have h1 : 46341 * 46341 ≤ p * p := Nat.mul_le_mul hb hb
    have e0 : (2 : Nat) ^ 31 = 2147483648 := by norm_num
    omega
  intro vs hvs
  obtain ⟨_, rfl⟩ := constructVertices_some p vs hvs
  intro i j u v hu hv hne k hk hkp he
  obtain ⟨hi, eu⟩ := vertex_get p i u hu
  obtain ⟨hj, ev⟩ := vertex_get p j v hv
  obtain ⟨ur, u1, u2, u3, upos⟩ := pointAt_shape p i hp.two_le hi
  obtain ⟨vr, v1, v2, v3, vpos⟩ := pointAt_shape p j hp.two_le hj
  rw [← eu] at ur u1 u2 u3 upos
  rw [← ev] at vr v1 v2 v3 vpos
  simp only [Prod.mk.injEq] at he
  obtain ⟨e1, e2, e3⟩ := he
  have hk1 : k = 1 := by
    apply isRep_scale p k u.x3 u.x2 u.x1 ur hk hkp
    rw [e1, e2, e3]; exact vr
  subst hk1
  simp only [Nat.one_mul, Nat.mod_eq_of_lt u1, Nat.mod_eq_of_lt u2, Nat.mod_eq_of_lt u3]
    at e1 e2 e3
  apply hne
  rw [eu, ev, pointAt_id, pointAt_id, ← upos, ← vpos, e1, e2, e3]

/-- Instance of C9 at the order 3. -/
theorem C9_points_not_proportional_witness :
    Nat.Prime 3 ∧
    (3 ≤ 46340 → ∃ vs, constructVertices 3 = some vs ∧
      vs.vertices.length = 3 * 3 + 3 + 1) ∧
    (46340 < 3 → constructVertices 3 = none) ∧
    ∀ vs, constructVertices 3 = some vs →
      ∀ (i j : Nat) (u v : Vector), vs.vertices[i]? = some (some u) →
        vs.vertices[j]? = some (some v) →
        u.id ≠ v.id → ∀ k, 1 ≤ k → k < 3 →
          ((k * u.x1) % 3, (k * u.x2) % 3, (k * u.x3) % 3) ≠ (v.x1, v.x2, v.x3) :=
  ⟨Nat.prime_three, C9_points_not_proportional 3 Nat.prime_three⟩

/-- C10, refuted as stated: at the prime order 46349 the size `o * o + o + 1 = 2148276151`
is above the largest `int`; `constructVertices` produces no point list, so there is no
list of points covering the directions. -/
theorem C10_counterexample :
    Nat.Prime 46349 ∧ constructVertices 46349 = none ∧
    ¬ ∃ vs, constructVertices 46349 = some vs ∧
      ∀ x y z, x < 46349 → y < 46349 → z < 46349 → ¬ (x = 0 ∧ y = 0 ∧ z = 0) →
        ∃ (i : Nat) (v : Vector) (k : Nat), vs.vertices[i]? = some (some v) ∧
          1 ≤ k ∧ k < 46349 ∧ x % 46349 = (k * v.x1) % 46349 ∧
          y % 46349 = (k * v.x2) % 46349 ∧ z % 46349 = (k * v.x3) % 46349 := by
  refine ⟨by norm_num, constructVertices_overflow 46349 (by norm_num), ?_⟩
  rintro ⟨vs, h, _⟩
  rw [constructVertices_overflow 46349 (by norm_num)] at h
  exact Option.noConfusion h

/-- C10, as amended: for every prime order `p ≤ 46340`, the primes whose array size
`p^2 + p + 1` fits an `int`, the points of `constructVertices` cover every direction of
`(Z/p)^3`: each nonzero vector `(x, y, z)` with coordinates in `0..p-1` is congruent modulo
`p` to `k` times a point of the list, for some scalar `k` in `1..p-1`. -/
theorem C10_points_cover_directions (p : Nat) (hp : p.Prime) (hb : p ≤ 46340) :
    ∃ vs, constructVertices p = some vs ∧
      ∀ x y z, x < p → y < p → z < p → ¬ (x = 0 ∧ y = 0 ∧ z = 0) →
        ∃ (i : Nat) (v : Vector) (k : Nat), vs.vertices[i]? = some (some v) ∧ 1 ≤ k ∧ k < p ∧
          x % p = (k * v.x1) % p ∧ y % p = (k * v.x2) % p ∧ z % p = (k * v.x3) % p := by
  refine ⟨_, constructVertices_eq p (vsize_lt_of_le p hb), ?_⟩
  intro x y z hx hy hz h0
  obtain ⟨a, b, c, k, ha, hb, hc, hr, hk, hkp, e3, e2, e1⟩ :=
    exists_rep_scale p z y x hp hz hy hx (fun h => h0 ⟨h.2.2, h.2.1, h.1⟩)
  obtain ⟨hpos, hpt⟩ := pointAt_posOf p c b a hc hb hr
  refine ⟨posOf p c b a, ⟨c, b, a, posOf p c b a⟩, k, ?_, hk, hkp, ?_, ?_, ?_⟩
  · show ((points p).map some)[posOf p c b a]? = _
    rw [points_get p _ hpos, hpt]
  · rw [Nat.mod_eq_of_lt hx]; exact e1
  · rw [Nat.mod_eq_of_lt hy]; exact e2
  · rw [Nat.mod_eq_of_lt hz]; exact e3

/-- Instance of C10 at the order 3. -/
theorem C10_points_cover_directions_witness :
    Nat.Prime 3 ∧ 3 ≤ 46340 ∧
    ∃ vs, constructVertices 3 = some vs ∧
      ∀ x y z, x < 3 → y < 3 → z < 3 → ¬ (x = 0 ∧ y = 0 ∧ z = 0) →
        ∃ (i : Nat) (v : Vector) (k : Nat), vs.vertices[i]? = some (some v) ∧ 1 ≤ k ∧ k < 3 ∧
          x % 3 = (k * v.x1) % 3 ∧ y % 3 = (k * v.x2) % 3 ∧ z % 3 = (k * v.x3) % 3 :=
  ⟨Nat.prime_three, by decide, C10_points_cover_directions 3 Nat.prime_three (by decide)⟩

/-! ## Claims about the size of lines and pencils -/

/-- C2: for every prime order `p` with `2 ≤ p ≤ 100` and every emitted representative
`(a, b, c)`, the line recorded in `lines` is exactly the list of all points of
`constructVertices(p)` whose dot product with `(a, b, c)` is congruent to 0 modulo `p`,
in position order; this list has exactly `p + 1` entries and its ids are ascending.  So
ending the scan after `p + 1` hits leaves out no incident point. -/
theorem C2_line_is_all_incident_points (p : Nat) (hp : p.Prime) (_h100 : p ≤ 100) :
    ∃ (pl : Plane) (pts : List Vector), run p = some pl ∧ pl.vertices = pts.map some ∧
      ∀ a b c, Emitted p pl a b c →
        pl.lines[a * p * p + b * p + c]? = some (some ((pts.filter
          (fun v => decide (v.dotProduct (Vector.mk3 a b c) % p = 0))).map some)) ∧
        (pts.filter
          (fun v => decide (v.dotProduct (Vector.mk3 a b c) % p = 0))).length = p + 1 ∧
        ((pts.filter (fun v => decide (v.dotProduct (Vector.mk3 a b c) % p = 0))).map
          Vector.getId).Pairwise (· < ·) := by
  refine ⟨_, points p, run_eq p hp (vsize_lt p _h100), rfl, ?_⟩
  intro a b c hem
  obtain ⟨ha, hb, hc, hr⟩ := (emitted_iff p a b c hp.two_le _ rfl).1 hem
  obtain ⟨d1, d2, d3⟩ := idx_decode p a b c hb hc
  have hline : lineAt p (idx p a b c) = (points p).filter
      (fun v => decide (v.dotProduct (Vector.mk3 a b c) % p = 0)) := by
    unfold lineAt
    rw [d1, d2, d3, onLine_eq]
  rw [← hline]
  refine ⟨?_, ?_, ?_⟩
  · show (finalLines p)[idx p a b c]? = _
    exact finalLines_get p _ (idx_lt p a b c ha hb hc) (by rw [repIdx_idx p a b c hb hc, hr])
  · unfold lineAt
    rw [d1, d2, d3]
    exact length_line p a b c hp.two_le hr
  · exact idsAt_sorted p (idx p a b c)

/-- Instance of C2 at the order 3. -/
theorem C2_line_is_all_incident_points_witness :
    Nat.Prime 3 ∧ 3 ≤ 100 ∧
    ∃ (pl : Plane) (pts : List Vector), run 3 = some pl ∧ pl.vertices = pts.map some ∧
      ∀ a b c, Emitted 3 pl a b c →
        pl.lines[a * 3 * 3 + b * 3 + c]? = some (some ((pts.filter
          (fun v => decide (v.dotProduct (Vector.mk3 a b c) % 3 = 0))).map some)) ∧
        (pts.filter
          (fun v => decide (v.dotProduct (Vector.mk3 a b c) % 3 = 0))).length = 3 + 1 ∧
        ((pts.filter (fun v => decide (v.dotProduct (Vector.mk3 a b c) % 3 = 0))).map
          Vector.getId).Pairwise (· < ·) :=
  ⟨Nat.prime_three, by decide, C2_line_is_all_incident_points 3 Nat.prime_three (by decide)⟩

/-- C6: for every prime order `p` with `2 ≤ p ≤ 100` and every point id `k` in
`0..p^2+p`, exactly `p + 1` of the lines `main` writes contain `k`. -/
theorem C6_lines_through_point (p : Nat) (hp : p.Prime) (_h100 : p ≤ 100) :
    ∃ pl, run p = some pl ∧
      ∀ k, k ≤ p * p + p →
        (pl.output.filter (fun l => decide (k ∈ l))).length = p + 1 := by
  refine ⟨_, run_eq p hp (vsize_lt p _h100), ?_⟩
  intro k hk
  exact lines_through_point p k hp.two_le (by omega)

/-- Instance of C6 at the order 3. -/
theorem C6_lines_through_point_witness :
    Nat.Prime 3 ∧ 3 ≤ 100 ∧
    ∃ pl, run 3 = some pl ∧
      ∀ k, k ≤ 3 * 3 + 3 →
        (pl.output.filter (fun l => decide (k ∈ l))).length = 3 + 1 :=
  ⟨Nat.prime_three, by decide, C6_lines_through_point 3 Nat.prime_three (by decide)⟩

/-! ## Claims about the incidence axioms -/

/-- C4: for every prime order `p` with `2 ≤ p ≤ 100` and every two different point ids
`u`, `v` in `0..p^2+p`, exactly one of the lines `main` writes contains both. -/
theorem C4_two_points_one_line (p : Nat) (hp : p.Prime) (_h100 : p ≤ 100) :
    ∃ pl, run p = some pl ∧
      ∀ u v : Nat, u ≤ p * p + p → v ≤ p * p + p → u ≠ v →
        (pl.output.filter (fun l => decide (u ∈ l ∧ v ∈ l))).length = 1 := by
  refine ⟨_, run_eq p hp (vsize_lt p _h100), ?_⟩
  intro u v hu hv hne
  exact two_points_join p u v hp (by omega) (by omega) hne

/-- Instance of C4 at the order 3. -/
theorem C4_two_points_one_line_witness :
    Nat.Prime 3 ∧ 3 ≤ 100 ∧
    ∃ pl, run 3 = some pl ∧
      ∀ u v : Nat, u ≤ 3 * 3 + 3 → v ≤ 3 * 3 + 3 → u ≠ v →
        (pl.output.filter (fun l => decide (u ∈ l ∧ v ∈ l))).length = 1 :=
  ⟨Nat.prime_three, by decide, C4_two_points_one_line 3 Nat.prime_three (by decide)⟩

/-- C5: for every prime order `p` with `2 ≤ p ≤ 100`, any two of the lines `main` writes,
taken at different places of the output, have exactly one point id in common; in
particular their id lists differ. -/
theorem C5_two_lines_one_point (p : Nat) (hp : p.Prime) (_h100 : p ≤ 100) :
    ∃ pl, run p = some pl ∧
      ∀ (i j : Nat) (l1 l2 : List Nat), pl.output[i]? = some l1 → pl.output[j]? = some l2 →
        i ≠ j → (l1.filter (fun k => decide (k ∈ l2))).length = 1 ∧ l1 ≠ l2 := by
  refine ⟨_, run_eq p hp (vsize_lt p _h100), ?_⟩
  intro i j l1 l2 h1 h2 hne
  have h1' : ((repList p).map (idsAt p))[i]? = some l1 := h1
  have h2' : ((repList p).map (idsAt p))[j]? = some l2 := h2
  rw [List.getElem?_map, Option.map_eq_some'] at h1' h2'
  obtain ⟨r, hr, e1⟩ := h1'
  obtain ⟨r', hr', e2⟩ := h2'
  have hrne : r ≠ r' := by
    intro h
    apply hne
    have hi : i < (repList p).length := by
      by_contra hcon
      rw [List.getElem?_eq_none (by omega)] at hr
      exact Option.noConfusion hr
    exact List.getElem?_inj hi (nodup_repList p) (by rw [hr, hr', h])
  have hone := two_lines_meet p r r' hp (List.getElem?_mem hr) (List.getElem?_mem hr')
    hrne
  rw [e1, e2] at hone
  refine ⟨hone, ?_⟩
  intro heq
  have hmem : r ∈ repList p := List.getElem?_mem hr
  rw [mem_repList] at hmem
  have hlen : l1.length = p + 1 := by
    rw [← e1, idsAt, List.length_map, lineAt]
    exact length_line p _ _ _ hp.two_le hmem.2
  rw [← heq] at hone
  have hall : l1.filter (fun k => decide (k ∈ l1)) = l1 := by
    rw [List.filter_eq_self]
    intro k hk
    simpa using hk
  rw [hall, hlen] at hone
  have := hp.two_le
  omega

/-- Instance of C5 at the order 3. -/
theorem C5_two_lines_one_point_witness :
    Nat.Prime 3 ∧ 3 ≤ 100 ∧
    ∃ pl, run 3 = some pl ∧
      ∀ (i j : Nat) (l1 l2 : List Nat), pl.output[i]? = some l1 → pl.output[j]? = some l2 →
        i ≠ j → (l1.filter (fun k => decide (k ∈ l2))).length = 1 ∧ l1 ≠ l2 :=
  ⟨Nat.prime_three, by decide, C5_two_lines_one_point 3 Nat.prime_three (by decide)⟩

/-! ## Claim about the order of the output -/

/-- C11: for every prime order `p` with `2 ≤ p ≤ 100`, the rounds of the triple loop of
`constructLines` run in ascending flag index, and the lines `main` writes, in the order it
writes them, are exactly the lines created by those rounds, in the order of creation. -/
theorem C11_emission_order (p : Nat) (hp : p.Prime) (_h100 : p ≤ 100) :
    ∃ (pl : Plane) (u : List Bool) (rounds : List Round),
      run p = some pl ∧ initUnique p = some u ∧
      constructLines pl.vertices u p = some ⟨pl.unique, pl.lines⟩ ∧
      constructLinesLog pl.vertices u p = some (⟨pl.unique, pl.lines⟩, rounds) ∧
      rounds.map Round.slot = List.range (p * p * p) ∧
      List.Forall₂ (fun ids (r : Round) => ∃ ln, r.line = some ln ∧ lineIds p ln = some ids)
        pl.output (rounds.filter (fun r => r.fresh)) := by
  obtain ⟨u, e1, h1, h2⟩ := initUnique_eq p hp.pos
  refine ⟨_, u, _, run_eq p hp (vsize_lt p _h100), e1, constructLines_eq p hp u h1 h2,
    constructLinesLog_eq p hp u h1 h2, ?_, ?_⟩
  · rw [List.map_map]
    have : Round.slot ∘ roundAt p = id := by funext k; rfl
    rw [this, List.map_id]
  · show List.Forall₂ _ ((repList p).map (idsAt p)) _
    have hf : ((List.range (p * p * p)).map (roundAt p)).filter (fun r => r.fresh) =
        (repList p).map (roundAt p) := by
      rw [List.filter_map, repList]
      rfl
    rw [hf, List.forall₂_map_left_iff, List.forall₂_map_right_iff, List.forall₂_same]
    intro r hr
    rw [mem_repList] at hr
    refine ⟨(lineAt p r).map some, by simp [roundAt, hr.2], ?_⟩
    have hlen : (lineAt p r).length = p + 1 := by
      unfold lineAt
      exact length_line p _ _ _ hp.two_le hr.2
    rw [lineIds_eq p (lineAt p r) hlen]
    rfl

/-- Instance of C11 at the order 3. -/
theorem C11_emission_order_witness :
    Nat.Prime 3 ∧ 3 ≤ 100 ∧
    ∃ (pl : Plane) (u : List Bool) (rounds : List Round),
      run 3 = some pl ∧ initUnique 3 = some u ∧
      constructLines pl.vertices u 3 = some ⟨pl.unique, pl.lines⟩ ∧
      constructLinesLog pl.vertices u 3 = some (⟨pl.unique, pl.lines⟩, rounds) ∧
      rounds.map Round.slot = List.range (3 * 3 * 3) ∧
      List.Forall₂ (fun ids (r : Round) => ∃ ln, r.line = some ln ∧ lineIds 3 ln = some ids)
        pl.output (rounds.filter (fun r => r.fresh)) :=
  ⟨Nat.prime_three, by decide, C11_emission_order 3 Nat.prime_three (by decide)⟩

/-! ## Claims about the flags during and after the triple loop -/

/-- C19: for every prime order `p` with `2 ≤ p ≤ 100`, the class of every nonzero vector
contains a member `r` with first nonzero coordinate 1 whose round finds its flag still
set and creates a line; every other member `w` of the class does not have that shape,
comes strictly later in the order of the triple loop, and is reached with its flag
already cleared, so its round is skipped.  Hence the processed member is the first of
its class in loop order and no class is processed twice. -/
theorem C19_representative_is_first (p : Nat) (hp : p.Prime) (_h100 : p ≤ 100) :
    ∃ (pl : Plane) (u : List Bool) (rounds : List Round),
      run p = some pl ∧ initUnique p = some u ∧
      constructLinesLog pl.vertices u p = some (⟨pl.unique, pl.lines⟩, rounds) ∧
      ∀ a b c, a < p → b < p → c < p → ¬ (a = 0 ∧ b = 0 ∧ c = 0) →
        ∃ r1 r2 r3, r1 < p ∧ r2 < p ∧ r3 < p ∧ isRep r1 r2 r3 = true ∧
          (∃ k, ScalarMultiple p k r1 r2 r3 a b c) ∧
          (∃ ln, rounds[r1 * p * p + r2 * p + r3]? =
            some ⟨r1 * p * p + r2 * p + r3, true, some ln⟩) ∧
          ∀ k w1 w2 w3, ScalarMultiple p k r1 r2 r3 w1 w2 w3 →
            (w1 = r1 ∧ w2 = r2 ∧ w3 = r3) ∨
            (isRep w1 w2 w3 = false ∧
              r1 * p * p + r2 * p + r3 < w1 * p * p + w2 * p + w3 ∧
              rounds[w1 * p * p + w2 * p + w3]? =
                some ⟨w1 * p * p + w2 * p + w3, false, none⟩) := by
  obtain ⟨u, e1, h1, h2⟩ := initUnique_eq p hp.pos
  refine ⟨_, u, _, run_eq p hp (vsize_lt p _h100), e1, constructLinesLog_eq p hp u h1 h2, ?_⟩
  intro a b c ha hb hc h0
  obtain ⟨r1, r2, r3, k, g1, g2, g3, hr, hk, hkp, f1, f2, f3⟩ :=
    exists_rep_scale p a b c hp ha hb hc h0
  refine ⟨r1, r2, r3, g1, g2, g3, hr, ⟨k, hk, hkp, f1, f2, f3⟩, ?_, ?_⟩
  · refine ⟨(lineAt p (idx p r1 r2 r3)).map some, ?_⟩
    show ((List.range (p * p * p)).map (roundAt p))[idx p r1 r2 r3]? = _
    rw [rounds_get p _ (idx_lt p _ _ _ g1 g2 g3),
      roundAt_of_rep p _ (by rw [repIdx_idx p _ _ _ g2 g3, hr])]
    rfl
  · rintro k' w1 w2 w3 ⟨hk', hkp', q1, q2, q3⟩
    by_cases hone : k' = 1
    · left
      subst hone
      simp only [Nat.one_mul, Nat.mod_eq_of_lt g1, Nat.mod_eq_of_lt g2, Nat.mod_eq_of_lt g3]
        at q1 q2 q3
      exact ⟨q1, q2, q3⟩
    · right
      have hk2 : 2 ≤ k' := by omega
      have hw1 : w1 < p := by rw [q1]; exact Nat.mod_lt _ hp.pos
      have hw2 : w2 < p := by rw [q2]; exact Nat.mod_lt _ hp.pos
      have hw3 : w3 < p := by rw [q3]; exact Nat.mod_lt _ hp.pos
      have hnr : isRep w1 w2 w3 = false := by
        rw [q1, q2, q3]; exact isRep_mark_false p k' r1 r2 r3 hr hk2 hkp'
      have hlt := idx_lt_markIdx p k' r1 r2 r3 g2 g3 hr hk2 hkp'
      rw [markIdx_eq, ← q1, ← q2, ← q3] at hlt
      refine ⟨hnr, hlt, ?_⟩
      show ((List.range (p * p * p)).map (roundAt p))[idx p w1 w2 w3]? = _
      rw [rounds_get p _ (idx_lt p _ _ _ hw1 hw2 hw3),
        roundAt_of_not_rep p _ (by rw [repIdx_idx p _ _ _ hw2 hw3, hnr])]
      rfl

/-- Instance of C19 at the order 3. -/
theorem C19_representative_is_first_witness :
    Nat.Prime 3 ∧ 3 ≤ 100 ∧
    ∃ (pl : Plane) (u : List Bool) (rounds : List Round),
      run 3 = some pl ∧ initUnique 3 = some u ∧
      constructLinesLog pl.vertices u 3 = some (⟨pl.unique, pl.lines⟩, rounds) ∧
      ∀ a b c, a < 3 → b < 3 → c < 3 → ¬ (a = 0 ∧ b = 0 ∧ c = 0) →
        ∃ r1 r2 r3, r1 < 3 ∧ r2 < 3 ∧ r3 < 3 ∧ isRep r1 r2 r3 = true ∧
          (∃ k, ScalarMultiple 3 k r1 r2 r3 a b c) ∧
          (∃ ln, rounds[r1 * 3 * 3 + r2 * 3 + r3]? =
            some ⟨r1 * 3 * 3 + r2 * 3 + r3, true, some ln⟩) ∧
          ∀ k w1 w2 w3, ScalarMultiple 3 k r1 r2 r3 w1 w2 w3 →
            (w1 = r1 ∧ w2 = r2 ∧ w3 = r3) ∨
            (isRep w1 w2 w3 = false ∧
              r1 * 3 * 3 + r2 * 3 + r3 < w1 * 3 * 3 + w2 * 3 + w3 ∧
              rounds[w1 * 3 * 3 + w2 * 3 + w3]? =
                some ⟨w1 * 3 * 3 + w2 * 3 + w3, false, none⟩) :=
  ⟨Nat.prime_three, by decide, C19_representative_is_first 3 Nat.prime_three (by decide)⟩

/-- C20: for every prime order `p` with `2 ≤ p ≤ 100`, when `constructLines` has returned
the flag at an index `i` with `1 ≤ i < p^3` is set exactly when slot `i` of `lines` holds
a stored line; every slot holds at the end what its round created, and the flag of every
round that created a line is still set, so no processed representative is cleared later;
index 0 is never processed, its flag stays cleared and its slot unassigned.  The output
loop of `main` therefore reads only assigned slots and writes every line that was built. -/
theorem C20_flags_match_slots (p : Nat) (hp : p.Prime) (_h100 : p ≤ 100) :
    ∃ (pl : Plane) (u : List Bool) (rounds : List Round),
      run p = some pl ∧ initUnique p = some u ∧
      constructLinesLog pl.vertices u p = some (⟨pl.unique, pl.lines⟩, rounds) ∧
      (∀ i, 1 ≤ i → i < p * p * p →
        (pl.unique[i]? = some true ↔ ∃ ln, pl.lines[i]? = some (some ln))) ∧
      (∀ rd ∈ rounds, pl.lines[rd.slot]? = some rd.line ∧
        (rd.fresh = true → rd.line ≠ none ∧ pl.unique[rd.slot]? = some true)) ∧
      rounds[0]? = some ⟨0, false, none⟩ ∧
      pl.unique[0]? = some false ∧ pl.lines[0]? = some none ∧
      emitLines p ⟨pl.unique, pl.lines⟩ = some pl.output ∧
      pl.output.length = (rounds.filter (fun r => r.fresh)).length := by
  obtain ⟨u, e1, h1, h2⟩ := initUnique_eq p hp.pos
  have hpos : 0 < p * p * p := Nat.mul_pos (Nat.mul_pos hp.pos hp.pos) hp.pos
  have hlines : ∀ i, i < p * p * p → (finalLines p)[i]? =
      some (if repIdx p i = true then some ((lineAt p i).map some) else none) := by
    intro i hi
    simp [finalLines, List.getElem?_range hi]
  refine ⟨_, u, _, run_eq p hp (vsize_lt p _h100), e1, constructLinesLog_eq p hp u h1 h2, ?_, ?_, ?_, ?_, ?_,
    emitLines_eq p hp.two_le, ?_⟩
  · intro i _ hi
    show (finalUnique p)[i]? = some true ↔ ∃ ln, (finalLines p)[i]? = some (some ln)
    rw [finalUnique_get p i hi, hlines i hi]
    cases hr : repIdx p i <;> simp
  · intro rd hrd
    rw [List.mem_map] at hrd
    obtain ⟨k, hk, rfl⟩ := hrd
    rw [List.mem_range] at hk
    show (finalLines p)[k]? = some (roundAt p k).line ∧
      ((roundAt p k).fresh = true → (roundAt p k).line ≠ none ∧
        (finalUnique p)[k]? = some true)
    rw [hlines k hk, finalUnique_get p k hk]
    cases hr : repIdx p k <;> simp [roundAt, hr]
  · show ((List.range (p * p * p)).map (roundAt p))[0]? = _
    rw [rounds_get p 0 hpos, roundAt_of_not_rep p 0 (repIdx_zero p)]
  · show (finalUnique p)[0]? = _
    rw [finalUnique_get p 0 hpos, repIdx_zero]
  · show (finalLines p)[0]? = _
    rw [hlines 0 hpos, repIdx_zero]
    simp
  · show ((repList p).map (idsAt p)).length = _
    have hf : ((List.range (p * p * p)).map (roundAt p)).filter (fun r => r.fresh) =
        (repList p).map (roundAt p) := by
      rw [List.filter_map, repList]
      rfl
    rw [hf, List.length_map, List.length_map]

/-- Instance of C20 at the order 3. -/
theorem C20_flags_match_slots_witness :
    Nat.Prime 3 ∧ 3 ≤ 100 ∧
    ∃ (pl : Plane) (u : List Bool) (rounds : List Round),
      run 3 = some pl ∧ initUnique 3 = some u ∧
      constructLinesLog pl.vertices u 3 = some (⟨pl.unique, pl.lines⟩, rounds) ∧
      (∀ i, 1 ≤ i → i < 3 * 3 * 3 →
        (pl.unique[i]? = some true ↔ ∃ ln, pl.lines[i]? = some (some ln))) ∧
      (∀ rd ∈ rounds, pl.lines[rd.slot]? = some rd.line ∧
        (rd.fresh = true → rd.line ≠ none ∧ pl.unique[rd.slot]? = some true)) ∧
      rounds[0]? = some ⟨0, false, none⟩ ∧
      pl.unique[0]? = some false ∧ pl.lines[0]? = some none ∧
      emitLines 3 ⟨pl.unique, pl.lines⟩ = some pl.output ∧
      pl.output.length = (rounds.filter (fun r => r.fresh)).length :=
  ⟨Nat.prime_three, by decide, C20_flags_match_slots 3 Nat.prime_three (by decide)⟩

/-! ## Claim about array bounds -/

theorem mem_points (p : Nat) (v : Vector) (h : v ∈ points p) : v.id ≤ p * p + p := by
  rw [points, List.mem_map] at h
  obtain ⟨k, hk, rfl⟩ := h
  rw [List.mem_range] at hk
  rw [pointAt_id]
  omega

/-- C12: for every prime order `p` with `2 ≤ p ≤ 100`, `constructLines` runs without any
access outside its arrays (in the embedding such an access makes the result `none`): the
arrays have `p^3` cells, every index `a*p^2 + b*p + c` and every marking index lies below
`p^3`, and for every round that is not skipped the incidence scan, started at point 0 with
an empty line, returns with `p + 1` points, all read at positions at most `p^2 + p`. -/
theorem C12_no_out_of_range (p : Nat) (hp : p.Prime) (_h100 : p ≤ 100) :
    ∃ (pl : Plane) (u : List Bool) (rounds : List Round),
      run p = some pl ∧ initUnique p = some u ∧
      constructLines pl.vertices u p = some ⟨pl.unique, pl.lines⟩ ∧
      constructLinesLog pl.vertices u p = some (⟨pl.unique, pl.lines⟩, rounds) ∧
      pl.vertices.length = p * p + p + 1 ∧ u.length = p * p * p ∧
      pl.unique.length = p * p * p ∧ pl.lines.length = p * p * p ∧
      (∀ a b c, a < p → b < p → c < p →
        a * p * p + b * p + c < p * p * p ∧
        ∀ i, ((i * a) % p) * p * p + ((i * b) % p) * p + (i * c) % p < p * p * p) ∧
      (∀ a b c (rd : Round), a < p → b < p → c < p →
        rounds[a * p * p + b * p + c]? = some rd → rd.fresh = true →
        ∃ ln, scan p (Vector.mk3 a b c) pl.vertices 0 (List.replicate (p + 1) none) = some ln ∧
          ln.length = p + 1 ∧
          ∀ cell ∈ ln, ∃ v : Vector, cell = some v ∧ v.id ≤ p * p + p) := by
  obtain ⟨u, e1, h1, h2⟩ := initUnique_eq p hp.pos
  refine ⟨_, u, _, run_eq p hp (vsize_lt p _h100), e1, constructLines_eq p hp u h1 h2,
    constructLinesLog_eq p hp u h1 h2, ?_, h1, ?_, ?_, ?_, ?_⟩
  · show ((points p).map some).length = _
    rw [List.length_map, length_points]
  · show (finalUnique p).length = _
    simp [finalUnique]
  · show (finalLines p).length = _
    simp [finalLines]
  · intro a b c ha hb hc
    exact ⟨idx_lt p a b c ha hb hc, fun i => markIdx_lt p i a b c hp.pos⟩
  · intro a b c rd ha hb hc hrd hfresh
    have hrd' : ((List.range (p * p * p)).map (roundAt p))[idx p a b c]? = some rd := hrd
    rw [rounds_get p _ (idx_lt p a b c ha hb hc)] at hrd'
    have hr : isRep a b c = true := by
      have : (roundAt p (idx p a b c)).fresh = true := by
        rw [Option.some.inj hrd']; exact hfresh
      rw [← repIdx_idx p a b c hb hc]
      exact this
    have hlen := length_line p a b c hp.two_le hr
    have hscan := scan_eq p a b c (points p) 0 (List.replicate (p + 1) none) (by simp)
      (by rw [hlen]; omega)
    simp only [List.take_zero, List.nil_append] at hscan
    refine ⟨_, hscan, by rw [List.length_map, hlen], ?_⟩
    intro cell hcell
    rw [List.mem_map] at hcell
    obtain ⟨v, hv, rfl⟩ := hcell
    exact ⟨v, rfl, mem_points p v (List.mem_filter.1 hv).1⟩

/-- Instance of C12 at the order 3. -/
theorem C12_no_out_of_range_witness :
    Nat.Prime 3 ∧ 3 ≤ 100 ∧
    ∃ (pl : Plane) (u : List Bool) (rounds : List Round),
      run 3 = some pl ∧ initUnique 3 = some u ∧
      constructLines pl.vertices u 3 = some ⟨pl.unique, pl.lines⟩ ∧
      constructLinesLog pl.vertices u 3 = some (⟨pl.unique, pl.lines⟩, rounds) ∧
      pl.vertices.length = 3 * 3 + 3 + 1 ∧ u.length = 3 * 3 * 3 ∧
      pl.unique.length = 3 * 3 * 3 ∧ pl.lines.length = 3 * 3 * 3 ∧
      (∀ a b c, a < 3 → b < 3 → c < 3 →
        a * 3 * 3 + b * 3 + c < 3 * 3 * 3 ∧
        ∀ i, ((i * a) % 3) * 3 * 3 + ((i * b) % 3) * 3 + (i * c) % 3 < 3 * 3 * 3) ∧
      (∀ a b c (rd : Round), a < 3 → b < 3 → c < 3 →
        rounds[a * 3 * 3 + b * 3 + c]? = some rd → rd.fresh = true →
        ∃ ln, scan 3 (Vector.mk3 a b c) pl.vertices 0 (List.replicate (3 + 1) none) = some ln ∧
          ln.length = 3 + 1 ∧
          ∀ cell ∈ ln, ∃ v : Vector, cell = some v ∧ v.id ≤ 3 * 3 + 3) :=
  ⟨Nat.prime_three, by decide, C12_no_out_of_range 3 Nat.prime_three (by decide)⟩

/-! ## Claim about a non-prime order -/

/-- The core at the order 4: vertices, flags and `constructLines` in sequence. -/
theorem core_four_eq_none :
    ((constructVertices 4).bind fun vs =>
      (initUnique 4).bind fun u => constructLines vs.vertices u 4) = none := by
  rfl

/-- C13, refuted as stated: at the order 4 `constructLines` does not run to completion
and returns no line list. -/
theorem C13_counterexample :
    ¬ ∃ (vs : VState) (u : List Bool) (st : LState),
      constructVertices 4 = some vs ∧ initUnique 4 = some u ∧
      constructLines vs.vertices u 4 = some st := by
  rintro ⟨vs, u, st, h1, h2, h3⟩
  have h := core_four_eq_none
  rw [h1, Option.some_bind, h2, Option.some_bind, h3] at h
  exact Option.noConfusion h

/-- C13, as amended: for the non-prime order 4 forced into the core, `constructVertices`
returns its 21 points and the rounds of the triple loop for `(0,0,0)` up to `(0,2,0)` run,
but `(0,2,1)`, at flag index 9, is then reached with its flag still set and is incident
with a single point; its incidence scan, which ends only after 5 hits, reads `vertices[21]`
outside the array, so `constructLines` does not return a line list. -/
theorem C13_order_four_scan_overruns :
    ∃ (vs : VState) (pts : List Vector) (u : List Bool) (s9 : LState),
      constructVertices 4 = some vs ∧ vs.vertices = pts.map some ∧ pts.length = 21 ∧
      initUnique 4 = some u ∧
      ((forLoop 0 2 (fun b s => forLoop 0 4 (fun c s => lineStep vs.vertices 4 0 b c s) s)
          ⟨u, List.replicate (4 * 4 * 4) none⟩).bind
        (lineStep vs.vertices 4 0 2 0)) = some s9 ∧
      s9.unique[0 * 4 * 4 + 2 * 4 + 1]? = some true ∧
      (pts.filter (fun v => decide (v.dotProduct (Vector.mk3 0 2 1) % 4 = 0))).length = 1 ∧
      scan 4 (Vector.mk3 0 2 1) vs.vertices 0 (List.replicate (4 + 1) none) = none ∧
      lineStep vs.vertices 4 0 2 1 s9 = none ∧
      constructLines vs.vertices u 4 = none := by
  refine ⟨_, points 4, _, _, constructVertices_eq 4 (by norm_num), rfl, rfl, rfl, rfl, rfl, rfl, rfl, rfl, rfl⟩

/-! ## Claim about classes of vectors and lines -/

/-- C14, refuted as stated: at the prime order 46337 the vector `(46336, 46336, 46335)` is
46336 times `(1, 1, 2)` modulo `p`, and the point `(46336, 46336, 1)` of
`constructVertices` is incident with `(1, 1, 2)` (dot product `92674 = 2 * p`), but its
32-bit dot product with `(46336, 46336, 46335)` wraps to `-871169`, which `% p` does not
send to 0: the two vectors do not have the same incident points. -/
theorem C14_counterexample :
    Nat.Prime 46337 ∧
    ∃ (vs : VState) (P : Vector), constructVertices 46337 = some vs ∧ some P ∈ vs.vertices ∧
      ScalarMultiple 46337 46336 1 1 2 46336 46336 46335 ∧
      P.dotProduct32 (Vector.mk3 1 1 2) = 92674 ∧
      Int.tmod (P.dotProduct32 (Vector.mk3 1 1 2)) ((46337 : Nat) : Int) = 0 ∧
      P.dotProduct32 (Vector.mk3 46336 46336 46335) = -871169 ∧
      Int.tmod (P.dotProduct32 (Vector.mk3 46336 46336 46335)) ((46337 : Nat) : Int) ≠ 0 ∧
      ¬ (∀ v1 v2 v3 w1 w2 w3, v1 < 46337 → v2 < 46337 → v3 < 46337 → w1 < 46337 →
        w2 < 46337 → w3 < 46337 →
        ¬ (v1 = 0 ∧ v2 = 0 ∧ v3 = 0) → ¬ (w1 = 0 ∧ w2 = 0 ∧ w3 = 0) →
        ((∀ Q, some Q ∈ vs.vertices →
            (Int.tmod (Q.dotProduct32 (Vector.mk3 v1 v2 v3)) ((46337 : Nat) : Int) = 0 ↔
              Int.tmod (Q.dotProduct32 (Vector.mk3 w1 w2 w3)) ((46337 : Nat) : Int) = 0)) ↔
          ∃ k, ScalarMultiple 46337 k v1 v2 v3 w1 w2 w3)) := by
  have hmem : some (⟨46336, 46336, 1, 1 + 46337 + 46336 * 46337 + 46336⟩ : Vector) ∈
      (points 46337).map some := by
    rw [← pointAt_second 46337 46336 46336 (by norm_num)]
    exact List.mem_map.2 ⟨_, List.mem_map.2 ⟨_, List.mem_range.2 (by norm_num), rfl⟩, rfl⟩
  have hsm : ScalarMultiple 46337 46336 1 1 2 46336 46336 46335 := by
    refine ⟨by norm_num, by norm_num, by norm_num, by norm_num, by norm_num⟩
  have d1 : (⟨46336, 46336, 1, 1 + 46337 + 46336 * 46337 + 46336⟩ : Vector).dotProduct32
      (Vector.mk3 1 1 2) = 92674 := by
    decide
  have d2 : (⟨46336, 46336, 1, 1 + 46337 + 46336 * 46337 + 46336⟩ : Vector).dotProduct32
      (Vector.mk3 46336 46336 46335) = -871169 := by
    decide
  have t1 : Int.tmod (92674 : Int) ((46337 : Nat) : Int) = 0 := rfl
  have t2 : Int.tmod (-871169 : Int) ((46337 : Nat) : Int) ≠ 0 := by
    rw [show Int.tmod (-871169 : Int) ((46337 : Nat) : Int) = -37103 from rfl]
    decide
  obtain ⟨vs, hvs, hvert⟩ := constructVertices_vertices 46337 (by norm_num)
  rw [← hvert] at hmem
  refine ⟨by norm_num, vs, ⟨46336, 46336, 1, 1 + 46337 + 46336 * 46337 + 46336⟩, hvs, hmem,
    hsm, d1, ?_, d2, ?_, ?_⟩
  · rw [d1]; exact t1
  · rw [d2]; exact t2
  · intro hall
    have h := (hall 1 1 2 46336 46336 46335 (by norm_num) (by norm_num) (by norm_num)
      (by norm_num) (by norm_num) (by norm_num) (by simp) (by simp)).2 ⟨46336, hsm⟩ _ hmem
    rw [d1, d2] at h
    exact t2 (h.1 t1)

/-- C14, amended: for every prime order `p` up to 32768 and every two nonzero candidate
vectors `v`, `w` with coordinates in `0..p-1`, the points of `constructVertices(p)` incident
with `v` (32-bit dot product, then `% p == 0`) are the points incident with `w` if and only
if `w` is a multiple of `v` by a scalar in `1..p-1` modulo `p`; on these points the 32-bit
dot product is the exact one. -/
theorem C14_same_line_iff_multiple (p : Nat) (hp : p.Prime) (hb : p ≤ 32768) :
    ∃ vs : VState, constructVertices p = some vs ∧
      ∀ v1 v2 v3 w1 w2 w3, v1 < p → v2 < p → v3 < p → w1 < p → w2 < p → w3 < p →
        ¬ (v1 = 0 ∧ v2 = 0 ∧ v3 = 0) → ¬ (w1 = 0 ∧ w2 = 0 ∧ w3 = 0) →
        (∀ Q, some Q ∈ vs.vertices →
          Q.dotProduct32 (Vector.mk3 v1 v2 v3) =
            ((Q.dotProduct (Vector.mk3 v1 v2 v3) : Nat) : Int)) ∧
        ((∀ Q, some Q ∈ vs.vertices →
            (Int.tmod (Q.dotProduct32 (Vector.mk3 v1 v2 v3)) ((p : Nat) : Int) = 0 ↔
              Int.tmod (Q.dotProduct32 (Vector.mk3 w1 w2 w3)) ((p : Nat) : Int) = 0)) ↔
          ∃ k, ScalarMultiple p k v1 v2 v3 w1 w2 w3) := by
  have hvb : p * p + p + 1 < 2 ^ 31 := vsize_lt_of_le p (by omega)
  obtain ⟨vs, hvs, hvert⟩ := constructVertices_vertices p hvb
  refine ⟨vs, hvs, ?_⟩
  intro v1 v2 v3 w1 w2 w3 hv1 hv2 hv3 hw1 hw2 hw3 hv0 hw0
  have hmem : ∀ Q, some Q ∈ vs.vertices ↔ Q ∈ points p := by
    intro Q
    rw [hvert, List.mem_map]
    constructor
    · rintro ⟨R, hR, e⟩
      cases e
      exact hR
    · intro h
      exact ⟨Q, h, rfl⟩
  have hexact : ∀ Q, Q ∈ points p → ∀ a b c, a < p → b < p → c < p →
      Q.dotProduct32 (Vector.mk3 a b c) = ((Q.dotProduct (Vector.mk3 a b c) : Nat) : Int) := by
    intro Q hQ a b c ha hb' hc
    obtain ⟨k, hk, rfl⟩ := List.mem_map.1 hQ
    exact dotProduct32_eq _ a b c
      (dot_lt_of_point p k a b c hp.two_le hb (List.mem_range.1 hk) ha hb' hc)
  refine ⟨fun Q hQ => hexact Q ((hmem Q).1 hQ) v1 v2 v3 hv1 hv2 hv3, ?_⟩
  rw [← same_points_iff_multiple p hp v1 v2 v3 w1 w2 w3 hv1 hv2 hv3 hw1 hw2 hw3 hv0 hw0]
  constructor
  · intro h Q hQ
    have := h Q ((hmem Q).2 hQ)
    rw [hexact Q hQ v1 v2 v3 hv1 hv2 hv3, hexact Q hQ w1 w2 w3 hw1 hw2 hw3,
      tmod_dot_eq_zero_iff, tmod_dot_eq_zero_iff, ← onLine_dot, ← onLine_dot] at this
    exact this
  · intro h Q hQ
    have hQ' := (hmem Q).1 hQ
    rw [hexact Q hQ' v1 v2 v3 hv1 hv2 hv3, hexact Q hQ' w1 w2 w3 hw1 hw2 hw3,
      tmod_dot_eq_zero_iff, tmod_dot_eq_zero_iff, ← onLine_dot, ← onLine_dot]
    exact h Q hQ'

/-- Instance of the amended C14 at the order 3. -/
theorem C14_same_line_iff_multiple_witness :
    Nat.Prime 3 ∧ 3 ≤ 32768 ∧
    ∃ vs : VState, constructVertices 3 = some vs ∧
      ∀ v1 v2 v3 w1 w2 w3, v1 < 3 → v2 < 3 → v3 < 3 → w1 < 3 → w2 < 3 → w3 < 3 →
        ¬ (v1 = 0 ∧ v2 = 0 ∧ v3 = 0) → ¬ (w1 = 0 ∧ w2 = 0 ∧ w3 = 0) →
        (∀ Q, some Q ∈ vs.vertices →
          Q.dotProduct32 (Vector.mk3 v1 v2 v3) =
            ((Q.dotProduct (Vector.mk3 v1 v2 v3) : Nat) : Int)) ∧
        ((∀ Q, some Q ∈ vs.vertices →
            (Int.tmod (Q.dotProduct32 (Vector.mk3 v1 v2 v3)) ((3 : Nat) : Int) = 0 ↔
              Int.tmod (Q.dotProduct32 (Vector.mk3 w1 w2 w3)) ((3 : Nat) : Int) = 0)) ↔
          ∃ k, ScalarMultiple 3 k v1 v2 v3 w1 w2 w3) :=
  ⟨Nat.prime_three, by decide, C14_same_line_iff_multiple 3 Nat.prime_three (by decide)⟩

/-! ## Claim about machine integers -/

theorem fits_of_le (n : Nat) (h : n ≤ 4000000) : FitsInt32 n := by
  unfold FitsInt32 int32
  constructor
  · have : (2 : Nat) ^ 31 = 2147483648 := by norm_num
    omega
  · have e1 : (2 : Int) ^ 31 = 2147483648 := by norm_num
    have e2 : (2 : Int) ^ 32 = 4294967296 := by norm_num
    rw [e1, e2]
    omega

theorem mul_le_bound (a b : Nat) (ha : a ≤ 100) (hb : b ≤ 100) : a * b ≤ 10000 :=
  Nat.mul_le_mul ha hb

theorem mul3_le_bound (a b c : Nat) (ha : a ≤ 100) (hb : b ≤ 100) (hc : c ≤ 100) :
    a * b * c ≤ 1000000 :=
  Nat.mul_le_mul (Nat.mul_le_mul ha hb) hc

/-- C15: for every order `p` with `2 ≤ p ≤ 100`, every intermediate integer of the core is
non-negative and below `2^31`, so a 32-bit signed `int` holds it exactly: the sizes
`p*p + p + 1` and `p*p*p`, for every point of `constructVertices(p)` and every candidate
vector the products and partial sums of the dot product and the dot product itself, the
products `i*a`, `i*b`, `i*c`, and the indices `a*p*p + b*p + c` and
`((i*a)%p)*p*p + ((i*b)%p)*p + (i*c)%p` with their partial results; and on these
non-negative values the truncating `%` of the machine is the residue modulo `p`. -/
theorem C15_no_overflow (p : Nat) (hp2 : 2 ≤ p) (h100 : p ≤ 100) :
    ∃ vs, constructVertices p = some vs ∧
      FitsInt32 (p * p) ∧ FitsInt32 (p * p + p) ∧ FitsInt32 (p * p + p + 1) ∧
      FitsInt32 (p * p * p) ∧
      (∀ (P : Vector) (a b c : Nat), some P ∈ vs.vertices → a < p → b < p → c < p →
        FitsInt32 (P.x1 * a) ∧ FitsInt32 (P.x2 * b) ∧ FitsInt32 (P.x3 * c) ∧
        FitsInt32 (P.x1 * a + P.x2 * b) ∧
        P.dotProduct (Vector.mk3 a b c) = P.x1 * a + P.x2 * b + P.x3 * c ∧
        FitsInt32 (P.dotProduct (Vector.mk3 a b c)) ∧
        Int.tmod (P.dotProduct (Vector.mk3 a b c) : Int) (p : Int) =
          ((P.dotProduct (Vector.mk3 a b c) % p : Nat) : Int)) ∧
      (∀ i a b c : Nat, i < p → a < p → b < p → c < p →
        FitsInt32 (i * a) ∧ FitsInt32 (i * b) ∧ FitsInt32 (i * c) ∧
        FitsInt32 (a * p) ∧ FitsInt32 (a * p * p) ∧ FitsInt32 (b * p) ∧
        FitsInt32 (a * p * p + b * p) ∧ FitsInt32 (a * p * p + b * p + c) ∧
        FitsInt32 ((i * a) % p * p) ∧ FitsInt32 ((i * a) % p * p * p) ∧
        FitsInt32 ((i * b) % p * p) ∧
        FitsInt32 ((i * a) % p * p * p + (i * b) % p * p) ∧
        FitsInt32 (markIdx p i a b c) ∧
        Int.tmod ((i * a : Nat) : Int) (p : Int) = (((i * a) % p : Nat) : Int)) := by
  have hpos : 0 < p := by omega
  have hpp := mul_le_bound p p h100 h100
  have hppp := mul3_le_bound p p p h100 h100 h100
  refine ⟨_, constructVertices_eq p (vsize_lt p h100), fits_of_le _ (by omega), fits_of_le _ (by omega),
    fits_of_le _ (by omega), fits_of_le _ (by omega), ?_, ?_⟩
  · intro P a b c hP ha hb hc
    have hP' : some P ∈ (points p).map some := hP
    rw [List.mem_map] at hP'
    obtain ⟨Q, hQ, hQP⟩ := hP'
    have hQP' : Q = P := Option.some.inj hQP
    subst hQP'
    rw [points, List.mem_map] at hQ
    obtain ⟨k, hk, rfl⟩ := hQ
    rw [List.mem_range] at hk
    obtain ⟨_, h1, h2, h3, _⟩ := pointAt_shape p k hp2 hk
    have b1 := mul_le_bound _ a (by omega : (pointAt p k).x1 ≤ 100) (by omega)
    have b2 := mul_le_bound _ b (by omega : (pointAt p k).x2 ≤ 100) (by omega)
    have b3 := mul_le_bound _ c (by omega : (pointAt p k).x3 ≤ 100) (by omega)
    have hdot : (pointAt p k).dotProduct (Vector.mk3 a b c) =
        (pointAt p k).x1 * a + (pointAt p k).x2 * b + (pointAt p k).x3 * c := rfl
    refine ⟨fits_of_le _ (by omega), fits_of_le _ (by omega), fits_of_le _ (by omega),
      fits_of_le _ (by omega), hdot, fits_of_le _ (by rw [hdot]; omega), ?_⟩
    exact (Int.ofNat_tmod _ _).symm
  · intro i a b c hi ha hb hc
    have m1 : (i * a) % p < p := Nat.mod_lt _ hpos
    have m2 : (i * b) % p < p := Nat.mod_lt _ hpos
    have m3 : (i * c) % p < p := Nat.mod_lt _ hpos
    have c1 := mul_le_bound i a (by omega) (by omega)
    have c2 := mul_le_bound i b (by omega) (by omega)
    have c3 := mul_le_bound i c (by omega) (by omega)
    have c4 := mul_le_bound a p (by omega) h100
    have c5 := mul3_le_bound a p p (by omega) h100 h100
    have c6 := mul_le_bound b p (by omega) h100
    have c7 := mul_le_bound ((i * a) % p) p (by omega) h100
    have c8 := mul3_le_bound ((i * a) % p) p p (by omega) h100 h100
    have c9 := mul_le_bound ((i * b) % p) p (by omega) h100
    refine ⟨fits_of_le _ (by omega), fits_of_le _ (by omega), fits_of_le _ (by omega),
      fits_of_le _ (by omega), fits_of_le _ (by omega), fits_of_le _ (by omega),
      fits_of_le _ (by omega), fits_of_le _ (by omega), fits_of_le _ (by omega),
      fits_of_le _ (by omega), fits_of_le _ (by omega), fits_of_le _ (by omega),
      fits_of_le _ (by unfold markIdx; omega), ?_⟩
    exact (Int.ofNat_tmod _ _).symm

/-- Instance of C15 at the largest order 100. -/
theorem C15_no_overflow_witness :
    2 ≤ 100 ∧ 100 ≤ 100 ∧
    ∃ vs, constructVertices 100 = some vs ∧
      FitsInt32 (100 * 100) ∧ FitsInt32 (100 * 100 + 100) ∧
      FitsInt32 (100 * 100 + 100 + 1) ∧ FitsInt32 (100 * 100 * 100) ∧
      (∀ (P : Vector) (a b c : Nat), some P ∈ vs.vertices → a < 100 → b < 100 → c < 100 →
        FitsInt32 (P.x1 * a) ∧ FitsInt32 (P.x2 * b) ∧ FitsInt32 (P.x3 * c) ∧
        FitsInt32 (P.x1 * a + P.x2 * b) ∧
        P.dotProduct (Vector.mk3 a b c) = P.x1 * a + P.x2 * b + P.x3 * c ∧
        FitsInt32 (P.dotProduct (Vector.mk3 a b c)) ∧
        Int.tmod (P.dotProduct (Vector.mk3 a b c) : Int) ((100 : Nat) : Int) =
          ((P.dotProduct (Vector.mk3 a b c) % 100 : Nat) : Int)) ∧
      (∀ i a b c : Nat, i < 100 → a < 100 → b < 100 → c < 100 →
        FitsInt32 (i * a) ∧ FitsInt32 (i * b) ∧ FitsInt32 (i * c) ∧
        FitsInt32 (a * 100) ∧ FitsInt32 (a * 100 * 100) ∧ FitsInt32 (b * 100) ∧
        FitsInt32 (a * 100 * 100 + b * 100) ∧ FitsInt32 (a * 100 * 100 + b * 100 + c) ∧
        FitsInt32 ((i * a) % 100 * 100) ∧ FitsInt32 ((i * a) % 100 * 100 * 100) ∧
        FitsInt32 ((i * b) % 100 * 100) ∧
        FitsInt32 ((i * a) % 100 * 100 * 100 + (i * b) % 100 * 100) ∧
        FitsInt32 (markIdx 100 i a b c) ∧
        Int.tmod ((i * a : Nat) : Int) ((100 : Nat) : Int) = (((i * a) % 100 : Nat) : Int)) :=
  ⟨by decide, by decide, C15_no_overflow 100 (by decide) (by decide)⟩

/-! ## Claims about the orders 2 and 3 -/

/-- The core evaluated at the order 2. -/
theorem run_two :
    (run 2).map (fun pl => (pl.vertices, pl.unique, pl.output)) =
      some ([some ⟨1, 0, 0, 0⟩, some ⟨0, 1, 0, 1⟩, some ⟨1, 1, 0, 2⟩, some ⟨0, 0, 1, 3⟩,
          some ⟨0, 1, 1, 4⟩, some ⟨1, 0, 1, 5⟩, some ⟨1, 1, 1, 6⟩],
        [false, true, true, true, true, true, true, true],
        [[0, 1, 2], [0, 3, 5], [0, 4, 6], [1, 3, 4], [1, 5, 6], [2, 3, 6], [2, 4, 5]]) := by
  decide

/-- The core evaluated at the order 3: the lines it writes. -/
theorem run_three :
    (run 3).map (fun pl => (pl.vertices.map (Option.map Vector.getId), pl.output)) =
      some ([some 0, some 1, some 2, some 3, some 4, some 5, some 6, some 7, some 8, some 9,
          some 10, some 11, some 12],
        [[0, 1, 2, 3], [0, 4, 7, 10], [0, 6, 9, 12], [0, 5, 8, 11], [1, 4, 5, 6],
          [1, 10, 11, 12], [1, 7, 8, 9], [3, 4, 9, 11], [3, 6, 8, 10], [3, 5, 7, 12],
          [2, 4, 8, 12], [2, 5, 9, 10], [2, 6, 7, 11]]) := by
  decide

/-- C16: at the order 2, the Fano plane, the core yields 7 points with ids 0..6 and writes
7 lines of exactly 3 point ids each; the first line written is the one of the
representative `(0,0,1)`, at flag index 1, and consists of the points whose dot product
with `(0,0,1)` vanishes modulo 2, the ids `[0,1,2]`; and no two of the 7 lines are equal. -/
theorem C16_fano_plane :
    ∃ (pl : Plane) (pts : List Vector),
      run 2 = some pl ∧ pl.vertices = pts.map some ∧ pts.length = 7 ∧
      pts.map Vector.getId = [0, 1, 2, 3, 4, 5, 6] ∧
      pl.output = [[0, 1, 2], [0, 3, 5], [0, 4, 6], [1, 3, 4], [1, 5, 6], [2, 3, 6],
        [2, 4, 5]] ∧
      pl.output.length = 7 ∧ (∀ l ∈ pl.output, l.length = 3) ∧
      pl.unique[0 * 2 * 2 + 0 * 2 + 1]? = some true ∧
      pl.output.head? = some ((pts.filter
        (fun v => decide (v.dotProduct (Vector.mk3 0 0 1) % 2 = 0))).map Vector.getId) ∧
      pl.output.head? = some [0, 1, 2] ∧
      pl.output.Nodup := by
  obtain ⟨pl, hpl, h⟩ := Option.map_eq_some'.1 run_two
  simp only [Prod.mk.injEq] at h
  obtain ⟨hv, hu, ho⟩ := h
  refine ⟨pl, [⟨1, 0, 0, 0⟩, ⟨0, 1, 0, 1⟩, ⟨1, 1, 0, 2⟩, ⟨0, 0, 1, 3⟩, ⟨0, 1, 1, 4⟩,
    ⟨1, 0, 1, 5⟩, ⟨1, 1, 1, 6⟩], hpl, hv, rfl, rfl, ho, ?_, ?_, ?_, ?_, ?_, ?_⟩
  · rw [ho]; rfl
  · rw [ho]; decide
  · rw [hu]; rfl
  · rw [ho]; rfl
  · rw [ho]; rfl
  · rw [ho]; decide

/-- C17: at the order 3 the core yields 13 points and writes 13 lines of exactly 4 point
ids each; every point lies on exactly 4 of the lines, every two different points lie
together on exactly one line, and every two lines at different places of the output have
exactly one point in common. -/
theorem C17_order_three :
    ∃ pl : Plane,
      run 3 = some pl ∧ pl.vertices.length = 13 ∧
      pl.vertices.map (Option.map Vector.getId) =
        [some 0, some 1, some 2, some 3, some 4, some 5, some 6, some 7, some 8, some 9,
          some 10, some 11, some 12] ∧
      pl.output.length = 13 ∧ (∀ l ∈ pl.output, l.length = 4) ∧
      (∀ k, k ≤ 12 → (pl.output.filter (fun l => decide (k ∈ l))).length = 4) ∧
      (∀ u, u ≤ 12 → ∀ v, v ≤ 12 → u ≠ v →
        (pl.output.filter (fun l => decide (u ∈ l ∧ v ∈ l))).length = 1) ∧
      (∀ i, i < 13 → ∀ j, j < 13 → i ≠ j →
        ((pl.output.getD i []).filter
          (fun k => decide (k ∈ pl.output.getD j []))).length = 1) := by
  obtain ⟨pl, hpl, h⟩ := Option.map_eq_some'.1 run_three
  simp only [Prod.mk.injEq] at h
  obtain ⟨hv, ho⟩ := h
  refine ⟨pl, hpl, ?_, hv, ?_, ?_, ?_, ?_, ?_⟩
  · have := congrArg List.length hv
    simpa using this
  · rw [ho]; rfl
  · rw [ho]; decide
  · rw [ho]; decide
  · rw [ho]; decide
  · rw [ho]; decide

/-! ## Claim about the checks of `main` -/

theorem isPrimeFrom_spec (leSqrt : Nat → Nat → Bool) (p : Nat)
    (h : ∀ i q, leSqrt i q = true ↔ i * i ≤ q) :
    ∀ (fuel i : Nat), 2 ≤ i → i ≤ p + 1 → p + 1 < fuel + i →
      (∀ m, 2 ≤ m → m < i → ¬ m ∣ p) →
      ∃ b, isPrimeFrom leSqrt p i fuel = some b ∧
        (b = true ↔ ∀ m, 2 ≤ m → m * m ≤ p → ¬ m ∣ p) := by
  intro fuel
  induction fuel with
  | zero => intro i _ h1 h2; omega
  | succ fuel ih =>
    intro i hi h1 h2 hno
    by_cases hle : i * i ≤ p
    · have hsq : leSqrt i p = true := (h i p).2 hle
      by_cases hdiv : p % i = 0
      · refine ⟨false, by simp [isPrimeFrom, hsq, hdiv], ?_⟩
        constructor
        · intro hf; exact Bool.noConfusion hf
        · intro hall
          exact absurd (Nat.dvd_of_mod_eq_zero hdiv) (hall i hi hle)
      · have hip : i ≤ p := le_trans (Nat.le_mul_self i) hle
        obtain ⟨b, e, hb⟩ := ih (i + 1) (by omega) (by omega) (by omega) (fun m hm hlt => by
          by_cases hmi : m = i
          · subst hmi
            exact fun hd => hdiv (Nat.mod_eq_zero_of_dvd hd)
          · exact hno m hm (by omega))
        exact ⟨b, by simp [isPrimeFrom, hsq, hdiv, e], hb⟩
    · have hsq : leSqrt i p = false := by
        rw [Bool.eq_false_iff]
        exact fun hs => hle ((h i p).1 hs)
      refine ⟨true, by simp [isPrimeFrom, hsq], ?_⟩
      constructor
      · intro _ m hm hmm
        apply hno m hm
        by_contra hcon
        have him : i ≤ m := by omega
        have := Nat.mul_le_mul him him
        omega
      · intro _; rfl

/-- The function `isPrime` answers whether `p` is prime, for every `p ≥ 2`. -/
theorem isPrime_spec (leSqrt : Nat → Nat → Bool) (p : Nat)
    (h : ∀ i q, leSqrt i q = true ↔ i * i ≤ q) (hp : 2 ≤ p) :
    ∃ b, isPrime leSqrt p = some b ∧ (b = true ↔ p.Prime) := by
  obtain ⟨b, e, hb⟩ := isPrimeFrom_spec leSqrt p h (p + 1) 2 (le_refl 2) (by omega) (by omega)
    (fun m hm hlt => by omega)
  refine ⟨b, e, ?_⟩
  rw [hb, Nat.prime_def_le_sqrt]
  constructor
  · intro hall
    exact ⟨hp, fun m hm hs => hall m hm (Nat.le_sqrt.1 hs)⟩
  · rintro ⟨_, hall⟩ m hm hs
    exact hall m hm (Nat.le_sqrt.2 hs)

/-- C18: provided the comparison `i <= sqrt(p)` holds exactly when `i * i ≤ p`, the function
`isPrime` returns true if and only if `p` is prime, for every `p ≥ 2`, and the checks of
`main` let an entered order go on to the core exactly when it is a prime with
`2 ≤ order ≤ 100`; every other order ends the program with `return 1`. -/
theorem C18_validation (leSqrt : Nat → Nat → Bool)
    (h : ∀ i q, leSqrt i q = true ↔ i * i ≤ q) :
    (∀ p, 2 ≤ p → ∃ b, isPrime leSqrt p = some b ∧ (b = true ↔ p.Prime)) ∧
    ∀ order : Int,
      ((2 ≤ order ∧ order ≤ 100 ∧ Nat.Prime order.toNat) →
        mainChecks leSqrt order = some (Checked.core order.toNat)) ∧
      (¬ (2 ≤ order ∧ order ≤ 100 ∧ Nat.Prime order.toNat) →
        mainChecks leSqrt order = some (Checked.exit 1)) := by
  refine ⟨fun p hp => isPrime_spec leSqrt p h hp, ?_⟩
  intro order
  by_cases h2 : order < 2
  · constructor
    · rintro ⟨h, _, _⟩; omega
    · intro _; simp [mainChecks, h2]
  · obtain ⟨b, e, hb⟩ := isPrime_spec leSqrt order.toNat h (by omega)
    constructor
    · rintro ⟨_, h100, hprime⟩
      have hbt : b = true := hb.2 hprime
      subst hbt
      have : ¬ order > 100 := by omega
      simp [mainChecks, h2, e, this]
    · intro hnot
      cases b with
      | false => simp [mainChecks, h2, e]
      | true =>
        have hprime : Nat.Prime order.toNat := hb.1 rfl
        have : order > 100 := by
          by_contra hcon
          exact hnot ⟨by omega, by omega, hprime⟩
        simp [mainChecks, h2, e, this]

/-- Instance of C18 with the comparison `i * i ≤ p` itself. -/
theorem C18_validation_witness :
    (∀ i q : Nat, (fun i q => decide (i * i ≤ q)) i q = true ↔ i * i ≤ q) ∧
    (∀ p, 2 ≤ p → ∃ b, isPrime (fun i q => decide (i * i ≤ q)) p = some b ∧
      (b = true ↔ p.Prime)) ∧
    ∀ order : Int,
      ((2 ≤ order ∧ order ≤ 100 ∧ Nat.Prime order.toNat) →
        mainChecks (fun i q => decide (i * i ≤ q)) order = some (Checked.core order.toNat)) ∧
      (¬ (2 ≤ order ∧ order ≤ 100 ∧ Nat.Prime order.toNat) →
        mainChecks (fun i q => decide (i * i ≤ q)) order = some (Checked.exit 1)) :=
  ⟨fun i q => by simp, C18_validation (fun i q => decide (i * i ≤ q)) (fun i q => by simp)⟩

end ProjectivePlane
